import Mathlib

/-!
# Verification of the `avl-base` intrusive AVL tree

Shallow embedding of `src/avl.c` (together with its header `avl.h`).

The C node is `struct avl { struct avl *next[2]; signed char balance; }`;
payload (the key) lives in the caller's enclosing record and is consulted only
through the comparator callback.  We model a node as an inductive tree carrying
its two children (`next[0]` = left, `next[1]` = right), the stored `balance`
field, and the key of the enclosing record.  The caller-supplied comparator is
modelled by the total order on `Int` (cmp < 0 iff key < node key, matching the
`cmp < 0 ? 0 : 1` child selection in the C code).

The C code uses `setjmp`/`longjmp` to abort the bottom-up rebalancing early.
Following the design notes of the spec, each recursive function returns an
explicit status instead: for insertion/deletion, whether the `longjmp` fired
(so that callers skip their balance adjustment), and the value held in the
jump context (`ctx.ret` / `ctx.res`).  Traversals additionally return the
trace of visited keys so that visit counts and visit order are observable.
-/

namespace AvlBase

/-- A tree node: children `next[0]`/`next[1]`, the stored `balance` byte, and
the key of the enclosing caller record (read only via the comparator). -/
inductive Avl : Type where
  | nil : Avl
  | node (l r : Avl) (balance : Int) (key : Int) : Avl
deriving DecidableEq, Repr

namespace Avl

/-- Stored balance field of the root (`(*root)->balance`); 0 for the empty
tree (the C code never reads the balance of a NULL node). -/
def bal : Avl → Int
  | .nil => 0
  | .node _ _ b _ => b

/-- Height of a tree: 0 for empty, 1 + max of children otherwise.  This is a
specification-level measure; the C code never computes it. -/
def ht : Avl → Nat
  | .nil => 0
  | .node l r _ _ => max l.ht r.ht + 1

/-- In-order key sequence. -/
def inorder : Avl → List Int
  | .nil => []
  | .node l r _ k => l.inorder ++ k :: r.inorder

/-- Pre-order key sequence. -/
def preorderKeys : Avl → List Int
  | .nil => []
  | .node l r _ k => k :: (l.preorderKeys ++ r.preorderKeys)

/-- Post-order key sequence. -/
def postorderKeys : Avl → List Int
  | .nil => []
  | .node l r _ k => l.postorderKeys ++ r.postorderKeys ++ [k]

/-- Every stored balance field equals the true height difference
(right height minus left height) and lies in `{-1,0,1}` (Boolean form). -/
def validb : Avl → Bool
  | .nil => true
  | .node l r b _ =>
    l.validb && r.validb && (b == (r.ht : Int) - (l.ht : Int)) &&
      (decide (-1 ≤ b) && decide (b ≤ 1))

/-- AVL validity: every stored balance field equals the true height
difference and lies in `{-1,0,1}`. -/
def valid (t : Avl) : Prop := t.validb = true

/-- Every stored balance field lies in `{-1,0,1}` (the balance part of the
invariant, without relating it to true heights). -/
def balOk : Avl → Bool
  | .nil => true
  | .node l r b _ =>
    (decide (-1 ≤ b) && decide (b ≤ 1)) && l.balOk && r.balOk

/-- The binary-search-tree ordering invariant, phrased as strict sortedness of
the in-order key sequence. -/
def sortedKeys (t : Avl) : Prop := List.Sorted (· < ·) t.inorder

instance (t : Avl) : Decidable t.valid := by
  unfold Avl.valid
  exact inferInstance

instance (t : Avl) : Decidable t.sortedKeys := by
  unfold Avl.sortedKeys
  exact List.decidableSorted t.inorder

end Avl

/-- `avl_max`: signed byte max-of-two. -/
def avl_max (x y : Int) : Int := if x > y then x else y

/-- Rotate in direction `dir`: `false` (= C `0`) is a left rotation, `true`
(= C `1`) a right rotation.  `B = A->next[!dir]`, `y = B->next[dir]`; the C
code dereferences `B` unconditionally, so the translation returns the input
unchanged in the (undefined-behavior) case where that child is absent. -/
def avl_rotate : Avl → Bool → Avl
  | .node l (.node y rB bB kB) bA kA, false =>
    let bA' := bA - (avl_max bB 0 + 1)
    let bB' := bB - (avl_max (-bA') 0 + 1)
    .node (.node l y bA' kA) rB bB' kB
  | .node (.node lB y bB kB) r bA kA, true =>
    let bA' := bA + (avl_max (-bB) 0 + 1)
    let bB' := bB + (avl_max bA' 0 + 1)
    .node lB (.node y r bA' kA) bB' kB
  | t, _ => t

/-- `avl_double_rot`: whether a double rotation is required, from the root
balance and the balance of the child on the heavy side. -/
def avl_double_rot (rbal cbal : Int) : Bool :=
  if rbal > 0 then cbal < 0 else cbal > 0

/-- `avl_restructure`: if the root balance left `{-1,0,1}`, rotate (once or
twice) to restore it.  `inext = bal < 0 ? 0 : 1` selects the heavy child. -/
def avl_restructure : Avl → Avl
  | .nil => .nil
  | .node l r b k =>
    if b < -1 ∨ 1 < b then
      if b < 0 then
        let l' := if avl_double_rot b l.bal then avl_rotate l false else l
        avl_rotate (.node l' r b k) true
      else
        let r' := if avl_double_rot b r.bal then avl_rotate r true else r
        avl_rotate (.node l r' b k) false
    else
      .node l r b k

/-- `avl_insert_commit`: restructure, then `longjmp` (flag `true`) exactly
when the post-correction root balance is zero. -/
def avl_insert_commit (t : Avl) : Avl × Bool :=
  let t' := avl_restructure t
  (t', t'.bal == 0)

/-- `avl_insert_thunk`: recursive insertion of a fresh zeroed node with key
`k`.  Result: the new subtree, the jump status (`none` = returned normally,
height grew, parent must adjust; `some ret` = a `longjmp` fired carrying
`ctx.ret`), and the number of join-callback invocations.  The join callback
receives the tree slot holding the equal node and the incoming key, and may
rewrite the slot arbitrarily. -/
def avl_insert_thunk (k : Int) (joinfn : Option (Avl → Int → Avl)) :
    Avl → Avl × Option Bool × Nat
  | .nil => (.node .nil .nil 0 k, none, 0)
  | .node l r b key =>
    if k = key then
      match joinfn with
      | some f => (f (.node l r b key) k, some true, 1)
      | none => (.node l r b key, some true, 0)
    else if k < key then
      match avl_insert_thunk k joinfn l with
      | (l', none, c) =>
        let p := avl_insert_commit (.node l' r (b - 1) key)
        (p.1, if p.2 then some false else none, c)
      | (l', some ret, c) => (.node l' r b key, some ret, c)
    else
      match avl_insert_thunk k joinfn r with
      | (r', none, c) =>
        let p := avl_insert_commit (.node l r' (b + 1) key)
        (p.1, if p.2 then some false else none, c)
      | (r', some ret, c) => (.node l r' b key, some ret, c)

/-- `avl_insert`: returns the new tree and whether the key was already
present (`ctx.ret`, initialized to 0 and set to 1 only on an equal match). -/
def avl_insert (t : Avl) (k : Int) (joinfn : Option (Avl → Int → Avl)) :
    Avl × Bool :=
  match avl_insert_thunk k joinfn t with
  | (t', none, _) => (t', false)
  | (t', some ret, _) => (t', ret)

/-- `avl_delete_commit`: restructure, then `longjmp` (flag `true`) exactly
when the post-correction root balance is nonzero. -/
def avl_delete_commit (t : Avl) : Avl × Bool :=
  let t' := avl_restructure t
  (t', !(t'.bal == 0))

/-- `avl_unlink_min`: unlink the minimum of the (nonempty) subtree whose root
fields are `l`, `r`, `b`, `k`.  Result: the new subtree, the key of the
unlinked node (`ctx.res`), and whether the inner `longjmp` fired (in which
case ancestors inside this walk skip their balance adjustment). -/
def avl_unlink_min : Avl → Avl → Int → Int → Avl × Int × Bool
  | .nil, r, _, k => (r, k, false)
  | .node ll lr lb lk, r, b, k =>
    match avl_unlink_min ll lr lb lk with
    | (l', mk, true) => (.node l' r b k, mk, true)
    | (l', mk, false) =>
      let p := avl_delete_commit (.node l' r (b + 1) k)
      (p.1, mk, p.2)

/-- `avl_delete_replace`: replace the matched node (whose fields are `l`, `r`,
`b`; its key is dropped) by a child or by its in-order successor.  The C code
copies `**root` (i.e. the two child links and the balance byte, with the right
link already rewritten by `avl_unlink_min`) into the successor node and
installs the successor in the slot.  Result: new subtree and jump status. -/
def avl_delete_replace (l r : Avl) (b : Int) : Avl × Bool :=
  match l, r with
  | .nil, _ => (r, false)
  | _, .nil => (l, false)
  | _, .node rl rr rb rk =>
    match avl_unlink_min rl rr rb rk with
    | (r', mk, false) =>
      let p := avl_delete_commit (.node l r' (b - 1) mk)
      (p.1, p.2)
    | (r', mk, true) => (.node l r' b mk, true)

/-- The C veto test `delfn && !delfn(*root)`: a supplied delete-predicate
returning zero on the matched node cancels the removal. -/
def vetoed (delfn : Option (Int → Bool)) (key : Int) : Bool :=
  match delfn with
  | some f => !f key
  | none => false

/-- `avl_delete_thunk`: search for the node equal to `k` and remove it
(unless vetoed).  The delete-predicate receives the matched node (modelled by
its key) and returns `true` to allow deletion.  Result: new subtree, the
recorded match (`ctx.res`), and whether a `longjmp` fired. -/
def avl_delete_thunk (k : Int) (delfn : Option (Int → Bool)) :
    Avl → Avl × Option Int × Bool
  | .nil => (.nil, none, true)
  | .node l r b key =>
    if k = key then
      if vetoed delfn key then
        (.node l r b key, some key, true)
      else
        let p := avl_delete_replace l r b
        (p.1, some key, p.2)
    else if k < key then
      match avl_delete_thunk k delfn l with
      | (l', res, true) => (.node l' r b key, res, true)
      | (l', res, false) =>
        let p := avl_delete_commit (.node l' r (b + 1) key)
        (p.1, res, p.2)
    else
      match avl_delete_thunk k delfn r with
      | (r', res, true) => (.node l r' b key, res, true)
      | (r', res, false) =>
        let p := avl_delete_commit (.node l r' (b - 1) key)
        (p.1, res, p.2)

/-- `avl_delete`: returns the new tree and the recorded match (`ctx.res`,
`NULL`-initialized, still returned when the predicate vetoed removal). -/
def avl_delete (t : Avl) (k : Int) (delfn : Option (Int → Bool)) :
    Avl × Option Int :=
  match avl_delete_thunk k delfn t with
  | (t', res, _) => (t', res)

/-- `avl_lookup`: comparator-guided descent, no mutation. -/
def avl_lookup (k : Int) : Avl → Option Int
  | .nil => none
  | .node l r _ key =>
    if k = key then some key
    else if k < key then avl_lookup k l
    else avl_lookup k r

/-- `AVL_PREORDER` enum constant. -/
def AVL_PREORDER : Nat := 0
/-- `AVL_INORDER` enum constant. -/
def AVL_INORDER : Nat := 1
/-- `AVL_POSTORDER` enum constant. -/
def AVL_POSTORDER : Nat := 2

/-- `avl_foreach_preorder`, instrumented: the visitor is a state-passing
function (the C `void *data` slot); the result is the trace of keys passed to
the visitor (in invocation order), the final state, and `ctx.ret` (0 when the
walk completed, otherwise the first nonzero visitor result, which fired the
`longjmp`). -/
def avl_foreach_preorder {σ : Type} (fn : Int → σ → Int × σ) :
    Avl → σ → List Int × σ × Int
  | .nil, s => ([], s, 0)
  | .node l r _ k, s =>
    let q := fn k s
    if q.1 ≠ 0 then ([k], q.2, q.1)
    else
      match avl_foreach_preorder fn l q.2 with
      | (vs, s2, r1) =>
        if r1 ≠ 0 then (k :: vs, s2, r1)
        else
          match avl_foreach_preorder fn r s2 with
          | (vs2, s3, r2) => (k :: (vs ++ vs2), s3, r2)

/-- `avl_foreach_inorder`, instrumented like `avl_foreach_preorder`. -/
def avl_foreach_inorder {σ : Type} (fn : Int → σ → Int × σ) :
    Avl → σ → List Int × σ × Int
  | .nil, s => ([], s, 0)
  | .node l r _ k, s =>
    match avl_foreach_inorder fn l s with
    | (vs, s1, r1) =>
      if r1 ≠ 0 then (vs, s1, r1)
      else
        let q := fn k s1
        if q.1 ≠ 0 then (vs ++ [k], q.2, q.1)
        else
          match avl_foreach_inorder fn r q.2 with
          | (vs2, s2, r2) => (vs ++ k :: vs2, s2, r2)

/-- `avl_foreach_postorder`, instrumented like `avl_foreach_preorder`. -/
def avl_foreach_postorder {σ : Type} (fn : Int → σ → Int × σ) :
    Avl → σ → List Int × σ × Int
  | .nil, s => ([], s, 0)
  | .node l r _ k, s =>
    match avl_foreach_postorder fn l s with
    | (vs, s1, r1) =>
      if r1 ≠ 0 then (vs, s1, r1)
      else
        match avl_foreach_postorder fn r s1 with
        | (vs2, s2, r2) =>
          if r2 ≠ 0 then (vs ++ vs2, s2, r2)
          else
            let q := fn k s2
            (vs ++ vs2 ++ [k], q.2, q.1)

/-- `avl_foreach`: dispatch on the order selector (`switch (dir)`); an
unmatched selector falls through with `ctx.ret` still 0. -/
def avl_foreach {σ : Type} (t : Avl) (dir : Nat) (fn : Int → σ → Int × σ)
    (s : σ) : List Int × σ × Int :=
  if dir = AVL_PREORDER then avl_foreach_preorder fn t s
  else if dir = AVL_INORDER then avl_foreach_inorder fn t s
  else if dir = AVL_POSTORDER then avl_foreach_postorder fn t s
  else ([], s, 0)

/-- The pure key sequence that the selected traversal order would visit if the
visitor never stopped (empty for an unmatched selector). -/
def travKeys (dir : Nat) (t : Avl) : List Int :=
  if dir = AVL_PREORDER then t.preorderKeys
  else if dir = AVL_INORDER then t.inorder
  else if dir = AVL_POSTORDER then t.postorderKeys
  else []

/-- Reference semantics for a cancellable visit sequence: run the visitor
left-to-right over a key list, stopping at (and including) the first key on
which the visitor returns a nonzero result, which becomes the overall
result. -/
def runVisits {σ : Type} (fn : Int → σ → Int × σ) :
    List Int → σ → List Int × σ × Int
  | [], s => ([], s, 0)
  | k :: ks, s =>
    let q := fn k s
    if q.1 ≠ 0 then ([k], q.2, q.1)
    else
      match runVisits fn ks q.2 with
      | (vs, s', r) => (k :: vs, s', r)

/-- Rewrite only the slot reached by comparator-guided descent to key `k`,
leaving the child links and balance fields of every other node untouched
(frame of the join-callback path in `avl_insert_thunk`). -/
def mapAtKey (k : Int) (f : Avl → Avl) : Avl → Avl
  | .nil => .nil
  | .node l r b key =>
    if k = key then f (.node l r b key)
    else if k < key then .node (mapAtKey k f l) r b key
    else .node l (mapAtKey k f r) b key

/-- The subtree whose root the comparator-guided descent to key `k` reaches
(the node `avl_lookup` would return, together with its subtree); `nil` when
the key is absent. -/
def subtreeAt (k : Int) : Avl → Avl
  | .nil => .nil
  | .node l r b key =>
    if k = key then .node l r b key
    else if k < key then subtreeAt k l
    else subtreeAt k r

/-- Build a tree by inserting the listed keys into the empty tree, with no
join callback. -/
def build (ks : List Int) : Avl :=
  ks.foldl (fun t k => (avl_insert t k none).1) .nil

/-! ## Basic lemmas -/

theorem valid_nil : Avl.nil.valid := rfl

theorem valid_node {l r : Avl} {b k : Int} :
    (Avl.node l r b k).valid ↔
      l.valid ∧ r.valid ∧ b = (r.ht : Int) - (l.ht : Int) ∧ -1 ≤ b ∧ b ≤ 1 := by
  simp [Avl.valid, Avl.validb, Bool.and_eq_true, decide_eq_true_iff, and_assoc]

theorem balOk_node {l r : Avl} {b k : Int} :
    (Avl.node l r b k).balOk = true ↔
      (-1 ≤ b ∧ b ≤ 1) ∧ l.balOk = true ∧ r.balOk = true := by
  simp [Avl.balOk, Bool.and_eq_true, decide_eq_true_iff, and_assoc]

/-- Validity bounds the root balance field. -/
theorem valid_bal_range {t : Avl} (h : t.valid) : -1 ≤ t.bal ∧ t.bal ≤ 1 := by
  cases t with
  | nil => exact ⟨by decide, by decide⟩
  | node l r b k =>
    rcases valid_node.mp h with ⟨_, _, _, h1, h2⟩
    exact ⟨h1, h2⟩

/-- Validity implies that every balance field lies in `{-1,0,1}`. -/
theorem valid_balOk {t : Avl} (h : t.valid) : t.balOk = true := by
  induction t with
  | nil => rfl
  | node l r b k ihl ihr =>
    rcases valid_node.mp h with ⟨hl, hr, _, h1, h2⟩
    exact balOk_node.mpr ⟨⟨h1, h2⟩, ihl hl, ihr hr⟩

theorem avl_max_eq (x y : Int) : avl_max x y = max x y := by
  simp only [avl_max]
  split <;> omega

/-! ## Rotation: balance-field correctness and in-order preservation -/

/-- A left rotation (`dir = 0`) whose two balance fields equal the true height
differences produces the rotated shape whose two balance fields again equal
the true height differences, computed without re-measuring heights. -/
theorem rotate0_spec (l y rB : Avl) (bA bB kA kB : Int)
    (hA : bA = ((Avl.node y rB bB kB).ht : Int) - (l.ht : Int))
    (hB : bB = (rB.ht : Int) - (y.ht : Int)) :
    avl_rotate (.node l (.node y rB bB kB) bA kA) false =
      .node (.node l y ((y.ht : Int) - (l.ht : Int)) kA) rB
        ((rB.ht : Int) -
          ((Avl.node l y ((y.ht : Int) - (l.ht : Int)) kA).ht : Int)) kB := by
  simp only [Avl.ht] at hA ⊢
  simp only [avl_rotate, avl_max_eq, Avl.node.injEq, and_true, true_and]
  push_cast at hA ⊢
  omega

/-- A right rotation (`dir = 1`), mirror of `rotate0_spec`. -/
theorem rotate1_spec (lB y r : Avl) (bA bB kA kB : Int)
    (hA : bA = (r.ht : Int) - ((Avl.node lB y bB kB).ht : Int))
    (hB : bB = (y.ht : Int) - (lB.ht : Int)) :
    avl_rotate (.node (.node lB y bB kB) r bA kA) true =
      .node lB (.node y r ((r.ht : Int) - (y.ht : Int)) kA)
        (((Avl.node y r ((r.ht : Int) - (y.ht : Int)) kA).ht : Int) -
          (lB.ht : Int)) kB := by
  simp only [Avl.ht] at hA ⊢
  simp only [avl_rotate, avl_max_eq, Avl.node.injEq, and_true, true_and]
  push_cast at hA ⊢
  omega

/-- Rotations permute links but keep the in-order key sequence. -/
theorem rotate_inorder (t : Avl) (d : Bool) :
    (avl_rotate t d).inorder = t.inorder := by
  match t, d with
  | .nil, _ => rfl
  | .node l .nil bA kA, false => cases l <;> rfl
  | .node l (.node y rB bB kB) bA kA, false =>
    simp [avl_rotate, Avl.inorder]
  | .node .nil r bA kA, true => cases r <;> rfl
  | .node (.node lB y bB kB) r bA kA, true =>
    simp [avl_rotate, Avl.inorder]

/-- Restructuring keeps the in-order key sequence. -/
theorem restructure_inorder (t : Avl) :
    (avl_restructure t).inorder = t.inorder := by
  match t with
  | .nil => rfl
  | .node l r b k =>
    simp only [avl_restructure]
    split
    · split
      · rw [rotate_inorder]
        have hl : (if avl_double_rot b l.bal = true then avl_rotate l false
            else l).inorder = l.inorder := by
          split
          · exact rotate_inorder l false
          · rfl
        simp [Avl.inorder, hl]
      · rw [rotate_inorder]
        have hr : (if avl_double_rot b r.bal = true then avl_rotate r true
            else r).inorder = r.inorder := by
          split
          · exact rotate_inorder r true
          · rfl
        simp [Avl.inorder, hr]
    · rfl

/-- Restructuring a left-heavy node (stored balance `-2`, valid children, the
left child two levels taller): the result is valid; the height shrinks by one
exactly when the heavy child's balance is nonzero, which is also exactly when
the post-correction root balance is zero. -/
theorem restructure_left (l r : Avl) (k : Int) (hvl : l.valid) (hvr : r.valid)
    (hht : l.ht = r.ht + 2) :
    (avl_restructure (Avl.node l r ((r.ht : Int) - (l.ht : Int)) k)).valid ∧
      (l.bal = 0 →
        (avl_restructure (Avl.node l r ((r.ht : Int) - (l.ht : Int)) k)).ht =
            r.ht + 3 ∧
          (avl_restructure
            (Avl.node l r ((r.ht : Int) - (l.ht : Int)) k)).bal ≠ 0) ∧
      (l.bal ≠ 0 →
        (avl_restructure (Avl.node l r ((r.ht : Int) - (l.ht : Int)) k)).ht =
            r.ht + 2 ∧
          (avl_restructure
            (Avl.node l r ((r.ht : Int) - (l.ht : Int)) k)).bal = 0) := by
  match l, hvl with
  | .nil, hvl =>
    simp only [Avl.ht] at hht
    omega
  | .node ll lr lb lk, hvl =>
    rcases valid_node.mp hvl with ⟨hvll, hvlr, hlb, hlb1, hlb2⟩
    have hbeq : (r.ht : Int) - ((Avl.node ll lr lb lk).ht : Int) = -2 := by
      rw [hht]; push_cast; omega
    rw [hbeq]
    have hlht : (Avl.node ll lr lb lk).ht = max ll.ht lr.ht + 1 := rfl
    have hcase : lb = -1 ∨ lb = 0 ∨ lb = 1 := by omega
    rcases hcase with hc | hc | hc <;> subst hc
    · -- single right rotation, heavy child leaning outward
      rw [show avl_restructure (Avl.node (Avl.node ll lr (-1) lk) r (-2) k) =
          avl_rotate (Avl.node (Avl.node ll lr (-1) lk) r (-2) k) true from by
        norm_num [avl_restructure, avl_double_rot, Avl.bal]]
      rw [rotate1_spec ll lr r (-2) (-1) k lk
        (by simp only [Avl.ht] at hht ⊢; omega) (by omega)]
      simp only [valid_node, Avl.ht, Avl.bal, hvll, hvlr, hvr, true_and]
      simp only [Avl.ht] at hht hlb ⊢
      refine ⟨by omega, fun h => by omega, fun h => by omega⟩
    · -- single right rotation, heavy child balanced (deletion-only case)
      rw [show avl_restructure (Avl.node (Avl.node ll lr 0 lk) r (-2) k) =
          avl_rotate (Avl.node (Avl.node ll lr 0 lk) r (-2) k) true from by
        norm_num [avl_restructure, avl_double_rot, Avl.bal]]
      rw [rotate1_spec ll lr r (-2) 0 k lk
        (by simp only [Avl.ht] at hht ⊢; omega) (by omega)]
      simp only [valid_node, Avl.ht, Avl.bal, hvll, hvlr, hvr, true_and]
      simp only [Avl.ht] at hht hlb ⊢
      refine ⟨by omega, fun h => by omega, fun h => by omega⟩
    · -- double rotation: left child leans inward
      match lr, hvlr with
      | .nil, hvlr =>
        simp only [Avl.ht] at hlb
        omega
      | .node m1 m2 mb mk', hvlr =>
        rcases valid_node.mp hvlr with ⟨hvm1, hvm2, hmb, hmb1, hmb2⟩
        rw [show avl_restructure
            (Avl.node (Avl.node ll (Avl.node m1 m2 mb mk') 1 lk) r (-2) k) =
            avl_rotate (Avl.node
              (avl_rotate (Avl.node ll (Avl.node m1 m2 mb mk') 1 lk) false)
              r (-2) k) true from by
          norm_num [avl_restructure, avl_double_rot, Avl.bal]]
        rw [rotate0_spec ll m1 m2 1 mb lk mk'
          (by simp only [Avl.ht] at hlb ⊢; omega) hmb]
        rw [rotate1_spec (Avl.node ll m1 ((m1.ht : Int) - (ll.ht : Int)) lk)
          m2 r (-2)
          ((m2.ht : Int) -
            ((Avl.node ll m1 ((m1.ht : Int) - (ll.ht : Int)) lk).ht : Int))
          k mk'
          (by simp only [Avl.ht] at hht hlb ⊢; omega)
          rfl]
        simp only [valid_node, Avl.ht, Avl.bal, hvll, hvlr, hvr, hvm1, hvm2,
          true_and]
        simp only [Avl.ht] at hht hlb hmb ⊢
        refine ⟨by omega, fun h => by omega, fun h => by omega⟩

/-- Restructuring a right-heavy node (stored balance `2`): mirror of
`restructure_left`. -/
theorem restructure_right (l r : Avl) (k : Int) (hvl : l.valid) (hvr : r.valid)
    (hht : r.ht = l.ht + 2) :
    (avl_restructure (Avl.node l r ((r.ht : Int) - (l.ht : Int)) k)).valid ∧
      (r.bal = 0 →
        (avl_restructure (Avl.node l r ((r.ht : Int) - (l.ht : Int)) k)).ht =
            l.ht + 3 ∧
          (avl_restructure
            (Avl.node l r ((r.ht : Int) - (l.ht : Int)) k)).bal ≠ 0) ∧
      (r.bal ≠ 0 →
        (avl_restructure (Avl.node l r ((r.ht : Int) - (l.ht : Int)) k)).ht =
            l.ht + 2 ∧
          (avl_restructure
            (Avl.node l r ((r.ht : Int) - (l.ht : Int)) k)).bal = 0) := by
  match r, hvr with
  | .nil, hvr =>
    simp only [Avl.ht] at hht
    omega
  | .node rl rr rb rk, hvr =>
    rcases valid_node.mp hvr with ⟨hvrl, hvrr, hrb, hrb1, hrb2⟩
    have hbeq : ((Avl.node rl rr rb rk).ht : Int) - (l.ht : Int) = 2 := by
      rw [hht]; push_cast; omega
    rw [hbeq]
    have hcase : rb = -1 ∨ rb = 0 ∨ rb = 1 := by omega
    rcases hcase with hc | hc | hc <;> subst hc
    · -- double rotation: right child leans inward
      match rl, hvrl with
      | .nil, hvrl =>
        simp only [Avl.ht] at hrb
        omega
      | .node m1 m2 mb mk', hvrl =>
        rcases valid_node.mp hvrl with ⟨hvm1, hvm2, hmb, hmb1, hmb2⟩
        rw [show avl_restructure
            (Avl.node l (Avl.node (Avl.node m1 m2 mb mk') rr (-1) rk) 2 k) =
            avl_rotate (Avl.node l
              (avl_rotate (Avl.node (Avl.node m1 m2 mb mk') rr (-1) rk) true)
              2 k) false from by
          norm_num [avl_restructure, avl_double_rot, Avl.bal]]
        rw [rotate1_spec m1 m2 rr (-1) mb rk mk'
          (by simp only [Avl.ht] at hrb ⊢; omega) hmb]
        rw [rotate0_spec l m1
          (Avl.node m2 rr ((rr.ht : Int) - (m2.ht : Int)) rk) 2
          (((Avl.node m2 rr ((rr.ht : Int) - (m2.ht : Int)) rk).ht : Int) -
            (m1.ht : Int))
          k mk'
          (by simp only [Avl.ht] at hht hrb ⊢; omega)
          rfl]
        simp only [valid_node, Avl.ht, Avl.bal, hvl, hvrr, hvm1, hvm2,
          true_and]
        simp only [Avl.ht] at hht hrb hmb ⊢
        refine ⟨by omega, fun h => by omega, fun h => by omega⟩
    · -- single left rotation, heavy child balanced (deletion-only case)
      rw [show avl_restructure (Avl.node l (Avl.node rl rr 0 rk) 2 k) =
          avl_rotate (Avl.node l (Avl.node rl rr 0 rk) 2 k) false from by
        norm_num [avl_restructure, avl_double_rot, Avl.bal]]
      rw [rotate0_spec l rl rr 2 0 k rk
        (by simp only [Avl.ht] at hht ⊢; omega) (by omega)]
      simp only [valid_node, Avl.ht, Avl.bal, hvl, hvrl, hvrr, true_and]
      simp only [Avl.ht] at hht hrb ⊢
      refine ⟨by omega, fun h => by omega, fun h => by omega⟩
    · -- single left rotation, heavy child leaning outward
      rw [show avl_restructure (Avl.node l (Avl.node rl rr 1 rk) 2 k) =
          avl_rotate (Avl.node l (Avl.node rl rr 1 rk) 2 k) false from by
        norm_num [avl_restructure, avl_double_rot, Avl.bal]]
      rw [rotate0_spec l rl rr 2 1 k rk
        (by simp only [Avl.ht] at hht ⊢; omega) (by omega)]
      simp only [valid_node, Avl.ht, Avl.bal, hvl, hvrl, hvrr, true_and]
      simp only [Avl.ht] at hht hrb ⊢
      refine ⟨by omega, fun h => by omega, fun h => by omega⟩

/-- Restructuring is the identity when the root balance is already in
`{-1,0,1}`. -/
theorem restructure_id (l r : Avl) (b k : Int) (h1 : -1 ≤ b) (h2 : b ≤ 1) :
    avl_restructure (Avl.node l r b k) = Avl.node l r b k := by
  simp only [avl_restructure]
  rw [if_neg]
  omega

/-- Case analysis of `avl_insert_commit` on a node with correct balance field:
in range it is a no-op that jumps iff the balance is zero; at `±2` (with the
heavy child unbalanced, as is always the case after an insertion grew it) a
rotation shrinks the subtree back by one, zeroes the root balance, and
jumps. -/
theorem insert_commit_split (l r : Avl) (b k : Int)
    (hvl : l.valid) (hvr : r.valid)
    (hb : b = (r.ht : Int) - (l.ht : Int)) :
    (-1 ≤ b → b ≤ 1 →
      avl_insert_commit (Avl.node l r b k) = (Avl.node l r b k, b == 0)) ∧
    (b = -2 → l.bal ≠ 0 →
      (avl_insert_commit (Avl.node l r b k)).1.valid ∧
        (avl_insert_commit (Avl.node l r b k)).1.ht = r.ht + 2 ∧
        (avl_insert_commit (Avl.node l r b k)).2 = true) ∧
    (b = 2 → r.bal ≠ 0 →
      (avl_insert_commit (Avl.node l r b k)).1.valid ∧
        (avl_insert_commit (Avl.node l r b k)).1.ht = l.ht + 2 ∧
        (avl_insert_commit (Avl.node l r b k)).2 = true) := by
  subst hb
  refine ⟨fun h1 h2 => ?_, fun h2 hbal => ?_, fun h2 hbal => ?_⟩
  · simp only [avl_insert_commit, restructure_id l r _ k h1 h2, Avl.bal]
  · have hht : l.ht = r.ht + 2 := by omega
    have H := restructure_left l r k hvl hvr hht
    rcases H.2.2 hbal with ⟨hh, hz⟩
    simp only [avl_insert_commit]
    exact ⟨H.1, hh, by simp [hz]⟩
  · have hht : r.ht = l.ht + 2 := by omega
    have H := restructure_right l r k hvl hvr hht
    rcases H.2.2 hbal with ⟨hh, hz⟩
    simp only [avl_insert_commit]
    exact ⟨H.1, hh, by simp [hz]⟩

/-- Case analysis of `avl_delete_commit` on a node with correct balance field:
in range it is a no-op that jumps iff the balance is nonzero; at `±2` the
rotation outcome depends on the heavy child's balance — zero keeps the height
(root balance nonzero, jump), nonzero shrinks by one (root balance zero, no
jump, propagation continues). -/
theorem delete_commit_split (l r : Avl) (b k : Int)
    (hvl : l.valid) (hvr : r.valid)
    (hb : b = (r.ht : Int) - (l.ht : Int)) :
    (-1 ≤ b → b ≤ 1 →
      avl_delete_commit (Avl.node l r b k) = (Avl.node l r b k, !(b == 0))) ∧
    (b = -2 →
      (avl_delete_commit (Avl.node l r b k)).1.valid ∧
        (l.bal = 0 →
          (avl_delete_commit (Avl.node l r b k)).1.ht = r.ht + 3 ∧
            (avl_delete_commit (Avl.node l r b k)).2 = true) ∧
        (l.bal ≠ 0 →
          (avl_delete_commit (Avl.node l r b k)).1.ht = r.ht + 2 ∧
            (avl_delete_commit (Avl.node l r b k)).2 = false)) ∧
    (b = 2 →
      (avl_delete_commit (Avl.node l r b k)).1.valid ∧
        (r.bal = 0 →
          (avl_delete_commit (Avl.node l r b k)).1.ht = l.ht + 3 ∧
            (avl_delete_commit (Avl.node l r b k)).2 = true) ∧
        (r.bal ≠ 0 →
          (avl_delete_commit (Avl.node l r b k)).1.ht = l.ht + 2 ∧
            (avl_delete_commit (Avl.node l r b k)).2 = false)) := by
  subst hb
  refine ⟨fun h1 h2 => ?_, fun h2 => ?_, fun h2 => ?_⟩
  · simp only [avl_delete_commit, restructure_id l r _ k h1 h2, Avl.bal]
  · have hht : l.ht = r.ht + 2 := by omega
    have H := restructure_left l r k hvl hvr hht
    simp only [avl_delete_commit]
    refine ⟨H.1, fun hz => ?_, fun hz => ?_⟩
    · rcases H.2.1 hz with ⟨hh, hnz⟩
      exact ⟨hh, by simp [hnz]⟩
    · rcases H.2.2 hz with ⟨hh, hzz⟩
      exact ⟨hh, by simp [hzz]⟩
  · have hht : r.ht = l.ht + 2 := by omega
    have H := restructure_right l r k hvl hvr hht
    simp only [avl_delete_commit]
    refine ⟨H.1, fun hz => ?_, fun hz => ?_⟩
    · rcases H.2.1 hz with ⟨hh, hnz⟩
      exact ⟨hh, by simp [hnz]⟩
    · rcases H.2.2 hz with ⟨hh, hzz⟩
      exact ⟨hh, by simp [hzz]⟩

/-- Bottom-up invariant of recursive insertion without a join callback: on a
normal return the subtree is valid and grew by exactly one level (and is a
fresh leaf or has nonzero root balance); after the "already present"
`longjmp` the subtree is untouched; after a commit `longjmp` the subtree is
valid with unchanged height, so the skipped ancestor adjustments are sound. -/
theorem insert_thunk_spec (k : Int) (t : Avl) (hv : t.valid) :
    match avl_insert_thunk k none t with
    | (t', none, _) => t'.valid ∧ t'.ht = t.ht + 1 ∧ (t'.bal ≠ 0 ∨ t'.ht = 1)
    | (t', some true, _) => t' = t
    | (t', some false, _) => t'.valid ∧ t'.ht = t.ht := by
  induction t with
  | nil =>
    refine ⟨?_, rfl, Or.inr rfl⟩
    simp [Avl.valid, Avl.validb, Avl.ht]
  | node l r b key ihl ihr =>
    rcases valid_node.mp hv with ⟨hvl, hvr, hb, hb1, hb2⟩
    specialize ihl hvl
    specialize ihr hvr
    simp only [avl_insert_thunk]
    by_cases hk : k = key
    · simp only [if_pos hk]
    · simp only [if_neg hk]
      by_cases hlt : k < key
      · simp only [if_pos hlt]
        rcases hres : avl_insert_thunk k none l with ⟨l', st, c⟩
        rw [hres] at ihl
        cases st with
        | some ret =>
          cases ret with
          | true =>
            simp only
            rw [ihl]
          | false =>
            rcases ihl with ⟨hvl', hht'⟩
            refine ⟨valid_node.mpr ⟨hvl', hvr, by omega, hb1, hb2⟩, ?_⟩
            simp only [Avl.ht]
            omega
        | none =>
          rcases ihl with ⟨hvl', hht', hbal'⟩
          have hb' : b - 1 = (r.ht : Int) - (l'.ht : Int) := by omega
          have H := insert_commit_split l' r (b - 1) key hvl' hvr hb'
          have hcase : b - 1 = -2 ∨ (-1 ≤ b - 1 ∧ b - 1 ≤ 0) := by omega
          rcases hcase with hc | hc
          · have hheavy : l'.bal ≠ 0 := by
              rcases hbal' with h | h
              · exact h
              · exfalso; omega
            rcases H.2.1 hc hheavy with ⟨hvT, hhT, hfT⟩
            simp only [hfT, if_true]
            refine ⟨hvT, ?_⟩
            rw [hhT]
            simp only [Avl.ht]
            omega
          · dsimp only
            rw [H.1 hc.1 (by omega)]
            by_cases hb0 : b - 1 = 0
            · rw [show ((b - 1 : Int) == 0) = true from by simp [hb0]]
              simp only [if_true]
              refine ⟨valid_node.mpr ⟨hvl', hvr, hb', by omega, by omega⟩, ?_⟩
              simp only [Avl.ht]
              omega
            · rw [show ((b - 1 : Int) == 0) = false from by simp [hb0]]
              simp only [Bool.false_eq_true, if_false]
              refine ⟨valid_node.mpr ⟨hvl', hvr, hb', by omega, by omega⟩,
                ?_, ?_⟩
              · simp only [Avl.ht]
                omega
              · left
                simp only [Avl.bal]
                omega
      · simp only [if_neg hlt]
        rcases hres : avl_insert_thunk k none r with ⟨r', st, c⟩
        rw [hres] at ihr
        cases st with
        | some ret =>
          cases ret with
          | true =>
            simp only
            rw [ihr]
          | false =>
            rcases ihr with ⟨hvr', hht'⟩
            refine ⟨valid_node.mpr ⟨hvl, hvr', by omega, hb1, hb2⟩, ?_⟩
            simp only [Avl.ht]
            omega
        | none =>
          rcases ihr with ⟨hvr', hht', hbal'⟩
          have hb' : b + 1 = (r'.ht : Int) - (l.ht : Int) := by omega
          have H := insert_commit_split l r' (b + 1) key hvl hvr' hb'
          have hcase : b + 1 = 2 ∨ (0 ≤ b + 1 ∧ b + 1 ≤ 1) := by omega
          rcases hcase with hc | hc
          · have hheavy : r'.bal ≠ 0 := by
              rcases hbal' with h | h
              · exact h
              · exfalso; omega
            rcases H.2.2 hc hheavy with ⟨hvT, hhT, hfT⟩
            simp only [hfT, if_true]
            refine ⟨hvT, ?_⟩
            rw [hhT]
            simp only [Avl.ht]
            omega
          · dsimp only
            rw [H.1 (by omega) hc.2]
            by_cases hb0 : b + 1 = 0
            · rw [show ((b + 1 : Int) == 0) = true from by simp [hb0]]
              simp only [if_true]
              refine ⟨valid_node.mpr ⟨hvl, hvr', hb', by omega, by omega⟩, ?_⟩
              simp only [Avl.ht]
              omega
            · rw [show ((b + 1 : Int) == 0) = false from by simp [hb0]]
              simp only [Bool.false_eq_true, if_false]
              refine ⟨valid_node.mpr ⟨hvl, hvr', hb', by omega, by omega⟩,
                ?_, ?_⟩
              · simp only [Avl.ht]
                omega
              · left
                simp only [Avl.bal]
                omega

theorem insert_commit_inorder (t : Avl) :
    (avl_insert_commit t).1.inorder = t.inorder := restructure_inorder t

theorem delete_commit_inorder (t : Avl) :
    (avl_delete_commit t).1.inorder = t.inorder := restructure_inorder t

/-- Invariant of `avl_unlink_min` on a valid nonempty subtree: the unlinked
key is the subtree's minimum (the head of its in-order sequence, whose tail
is the in-order sequence of what remains), the remainder is valid, and the
height shrank by one unless the inner `longjmp` fired (then it is
unchanged). -/
theorem unlink_min_spec (l : Avl) : ∀ (r : Avl) (b k : Int),
    (Avl.node l r b k).valid →
    match avl_unlink_min l r b k with
    | (t', mk, j) =>
      t'.valid ∧ mk :: t'.inorder = (Avl.node l r b k).inorder ∧
        (j = true → t'.ht = (Avl.node l r b k).ht) ∧
        (j = false → t'.ht + 1 = (Avl.node l r b k).ht) := by
  induction l with
  | nil =>
    intro r b k hv
    rcases valid_node.mp hv with ⟨_, hvr, hb, hb1, hb2⟩
    refine ⟨hvr, rfl, fun h => by simp at h, fun _ => ?_⟩
    simp only [Avl.ht]
    omega
  | node ll lr lb lk ih =>
    intro r b k hv
    rcases valid_node.mp hv with ⟨hvl, hvr, hb, hb1, hb2⟩
    have IH := ih lr lb lk hvl
    simp only [avl_unlink_min]
    rcases hres : avl_unlink_min ll lr lb lk with ⟨l', mk, j2⟩
    rw [hres] at IH
    rcases IH with ⟨hvl', hio, hjt, hjf⟩
    cases j2 with
    | true =>
      have hh := hjt rfl
      simp only [Avl.ht] at hb hh
      refine ⟨valid_node.mpr ⟨hvl', hvr, by omega, hb1, hb2⟩, ?_,
        fun _ => ?_, fun h => by simp at h⟩
      · simp only [Avl.inorder] at hio ⊢
        rw [← hio]
        rfl
      · simp only [Avl.ht]
        omega
    | false =>
      have hh := hjf rfl
      simp only [Avl.ht] at hb hh
      have hb' : b + 1 = (r.ht : Int) - (l'.ht : Int) := by omega
      have H := delete_commit_split l' r (b + 1) k hvl' hvr hb'
      have hio2 : mk :: (avl_delete_commit (Avl.node l' r (b + 1) k)).1.inorder
          = (Avl.node (Avl.node ll lr lb lk) r b k).inorder := by
        rw [delete_commit_inorder]
        simp only [Avl.inorder] at hio ⊢
        rw [← hio]
        rfl
      have hcase : b + 1 = 2 ∨ (0 ≤ b + 1 ∧ b + 1 ≤ 1) := by omega
      rcases hcase with hc | hc
      · rcases H.2.2 hc with ⟨hvT, hz, hnz⟩
        dsimp only
        refine ⟨hvT, hio2, fun hj => ?_, fun hj => ?_⟩
        · -- jump fired: the heavy child was balanced, height unchanged
          rcases eq_or_ne r.bal 0 with h0 | h0
          · rcases hz h0 with ⟨hhh, _⟩
            simp only [Avl.ht]
            omega
          · rcases hnz h0 with ⟨_, hflag⟩
            rw [hj] at hflag
            simp at hflag
        · rcases eq_or_ne r.bal 0 with h0 | h0
          · rcases hz h0 with ⟨_, hflag⟩
            rw [hj] at hflag
            simp at hflag
          · rcases hnz h0 with ⟨hhh, _⟩
            simp only [Avl.ht]
            omega
      · dsimp only
        rw [show avl_delete_commit (Avl.node l' r (b + 1) k) =
            (Avl.node l' r (b + 1) k, !((b + 1) == 0)) from
          H.1 (by omega) hc.2]
        rw [show avl_delete_commit (Avl.node l' r (b + 1) k) =
            (Avl.node l' r (b + 1) k, !((b + 1) == 0)) from
          H.1 (by omega) hc.2] at hio2
        refine ⟨valid_node.mpr ⟨hvl', hvr, hb', by omega, by omega⟩, hio2,
          fun hj => ?_, fun hj => ?_⟩
        · by_cases hb0 : b + 1 = 0
          · rw [show ((b + 1 : Int) == 0) = true from by simp [hb0]] at hj
            simp at hj
          · simp only [Avl.ht]
            omega
        · by_cases hb0 : b + 1 = 0
          · simp only [Avl.ht]
            omega
          · rw [show ((b + 1 : Int) == 0) = false from by simp [hb0]] at hj
            simp at hj

/-- `avl_delete_replace` on the fields of a valid matched node: the result is
valid, its in-order sequence is the concatenation of the two children's
sequences (the matched key is gone; with two children the in-order successor
has taken the position), and the height shrank by one unless the jump
fired. -/
theorem replace_spec (l r : Avl) (b : Int)
    (hvl : l.valid) (hvr : r.valid)
    (hb : b = (r.ht : Int) - (l.ht : Int)) (hb1 : -1 ≤ b) (hb2 : b ≤ 1) :
    match avl_delete_replace l r b with
    | (t', j) =>
      t'.valid ∧ t'.inorder = l.inorder ++ r.inorder ∧
        (j = true → t'.ht = max l.ht r.ht + 1) ∧
        (j = false → t'.ht + 1 = max l.ht r.ht + 1) := by
  cases l with
  | nil =>
    simp only [avl_delete_replace]
    refine ⟨hvr, by simp [Avl.inorder], fun h => by simp at h, fun _ => ?_⟩
    simp only [Avl.ht] at hb ⊢
    omega
  | node l1 l2 lb1 lk1 =>
    cases r with
    | nil =>
      simp only [avl_delete_replace]
      refine ⟨hvl, by simp [Avl.inorder], fun h => by simp at h, fun _ => ?_⟩
      simp only [Avl.ht] at hb ⊢
      omega
    | node rl rr rb rk =>
      simp only [avl_delete_replace]
      have U := unlink_min_spec rl rr rb rk hvr
      rcases hres : avl_unlink_min rl rr rb rk with ⟨r', mk, j2⟩
      rw [hres] at U
      rcases U with ⟨hvr', hio, hjt, hjf⟩
      cases j2 with
      | true =>
        have hh := hjt rfl
        simp only [Avl.ht] at hb hh
        refine ⟨valid_node.mpr ⟨hvl, hvr', by simp only [Avl.ht]; omega,
          hb1, hb2⟩, ?_, fun _ => ?_, fun h => by simp at h⟩
        · simp only [Avl.inorder] at hio ⊢
          rw [hio]
        · simp only [Avl.ht]
          omega
      | false =>
        have hh := hjf rfl
        simp only [Avl.ht] at hb hh
        have hb' : b - 1 = (r'.ht : Int) -
            ((Avl.node l1 l2 lb1 lk1).ht : Int) := by
          simp only [Avl.ht]
          omega
        have H := delete_commit_split (Avl.node l1 l2 lb1 lk1) r' (b - 1) mk
          hvl hvr' hb'
        have hio2 : (avl_delete_commit
              (Avl.node (Avl.node l1 l2 lb1 lk1) r' (b - 1) mk)).1.inorder =
            (Avl.node l1 l2 lb1 lk1).inorder ++
              (Avl.node rl rr rb rk).inorder := by
          rw [delete_commit_inorder]
          simp only [Avl.inorder] at hio ⊢
          rw [← hio]
        have hcase : b - 1 = -2 ∨ (-1 ≤ b - 1 ∧ b - 1 ≤ 0) := by omega
        rcases hcase with hc | hc
        · rcases H.2.1 hc with ⟨hvT, hz, hnz⟩
          dsimp only
          refine ⟨hvT, hio2, fun hj => ?_, fun hj => ?_⟩
          · rcases eq_or_ne (Avl.node l1 l2 lb1 lk1).bal 0 with h0 | h0
            · rcases hz h0 with ⟨hhh, _⟩
              simp only [Avl.ht]
              omega
            · rcases hnz h0 with ⟨_, hflag⟩
              rw [hj] at hflag
              simp at hflag
          · rcases eq_or_ne (Avl.node l1 l2 lb1 lk1).bal 0 with h0 | h0
            · rcases hz h0 with ⟨_, hflag⟩
              rw [hj] at hflag
              simp at hflag
            · rcases hnz h0 with ⟨hhh, _⟩
              simp only [Avl.ht]
              omega
        · dsimp only
          rw [show avl_delete_commit
              (Avl.node (Avl.node l1 l2 lb1 lk1) r' (b - 1) mk) =
              (Avl.node (Avl.node l1 l2 lb1 lk1) r' (b - 1) mk,
                !((b - 1) == 0)) from H.1 hc.1 (by omega)]
          rw [show avl_delete_commit
              (Avl.node (Avl.node l1 l2 lb1 lk1) r' (b - 1) mk) =
              (Avl.node (Avl.node l1 l2 lb1 lk1) r' (b - 1) mk,
                !((b - 1) == 0)) from H.1 hc.1 (by omega)] at hio2
          refine ⟨valid_node.mpr ⟨hvl, hvr', hb', by omega, by omega⟩, hio2,
            fun hj => ?_, fun hj => ?_⟩
          · by_cases hb0 : b - 1 = 0
            · rw [show ((b - 1 : Int) == 0) = true from by simp [hb0]] at hj
              simp at hj
            · simp only [Avl.ht]
              omega
          · by_cases hb0 : b - 1 = 0
            · simp only [Avl.ht]
              omega
            · rw [show ((b - 1 : Int) == 0) = false from by simp [hb0]] at hj
              simp at hj

/-- Bottom-up invariant of recursive deletion (any predicate): the resulting
subtree is valid; after a `longjmp` its height is unchanged (so skipping the
remaining ancestor adjustments is sound), and after a normal return it shrank
by exactly one level. -/
theorem delete_thunk_spec (k : Int) (delfn : Option (Int → Bool)) (t : Avl)
    (hv : t.valid) :
    match avl_delete_thunk k delfn t with
    | (t', _, j) =>
      t'.valid ∧ (j = true → t'.ht = t.ht) ∧
        (j = false → t'.ht + 1 = t.ht) := by
  induction t with
  | nil => exact ⟨valid_nil, fun _ => rfl, fun h => by simp at h⟩
  | node l r b key ihl ihr =>
    rcases valid_node.mp hv with ⟨hvl, hvr, hb, hb1, hb2⟩
    specialize ihl hvl
    specialize ihr hvr
    simp only [avl_delete_thunk]
    by_cases hk : k = key
    · simp only [if_pos hk]
      by_cases hveto : vetoed delfn key = true
      · rw [if_pos hveto]
        exact ⟨hv, fun _ => rfl, fun h => by simp at h⟩
      · rw [if_neg hveto]
        have R := replace_spec l r b hvl hvr hb hb1 hb2
        rcases hres : avl_delete_replace l r b with ⟨t', j⟩
        rw [hres] at R
        rcases R with ⟨hvT, _, hjt, hjf⟩
        dsimp only
        refine ⟨hvT, fun hj => ?_, fun hj => ?_⟩
        · rw [hjt hj]; rfl
        · rw [hjf hj]; rfl
    · simp only [if_neg hk]
      by_cases hlt : k < key
      · simp only [if_pos hlt]
        rcases hres : avl_delete_thunk k delfn l with ⟨l', res, j2⟩
        rw [hres] at ihl
        rcases ihl with ⟨hvl', hjt, hjf⟩
        cases j2 with
        | true =>
          have hh := hjt rfl
          refine ⟨valid_node.mpr ⟨hvl', hvr, by omega, hb1, hb2⟩,
            fun _ => ?_, fun h => by simp at h⟩
          simp only [Avl.ht]
          omega
        | false =>
          have hh := hjf rfl
          have hb' : b + 1 = (r.ht : Int) - (l'.ht : Int) := by omega
          have H := delete_commit_split l' r (b + 1) key hvl' hvr hb'
          have hcase : b + 1 = 2 ∨ (0 ≤ b + 1 ∧ b + 1 ≤ 1) := by omega
          rcases hcase with hc | hc
          · rcases H.2.2 hc with ⟨hvT, hz, hnz⟩
            dsimp only
            refine ⟨hvT, fun hj => ?_, fun hj => ?_⟩
            · rcases eq_or_ne r.bal 0 with h0 | h0
              · rcases hz h0 with ⟨hhh, _⟩
                simp only [Avl.ht]
                omega
              · rcases hnz h0 with ⟨_, hflag⟩
                rw [hj] at hflag
                simp at hflag
            · rcases eq_or_ne r.bal 0 with h0 | h0
              · rcases hz h0 with ⟨_, hflag⟩
                rw [hj] at hflag
                simp at hflag
              · rcases hnz h0 with ⟨hhh, _⟩
                simp only [Avl.ht]
                omega
          · dsimp only
            rw [show avl_delete_commit (Avl.node l' r (b + 1) key) =
                (Avl.node l' r (b + 1) key, !((b + 1) == 0)) from
              H.1 (by omega) hc.2]
            refine ⟨valid_node.mpr ⟨hvl', hvr, hb', by omega, by omega⟩,
              fun hj => ?_, fun hj => ?_⟩
            · by_cases hb0 : b + 1 = 0
              · rw [show ((b + 1 : Int) == 0) = true from by simp [hb0]] at hj
                simp at hj
              · simp only [Avl.ht]
                omega
            · by_cases hb0 : b + 1 = 0
              · simp only [Avl.ht]
                omega
              · rw [show ((b + 1 : Int) == 0) = false from by simp [hb0]]
                  at hj
                simp at hj
      · simp only [if_neg hlt]
        rcases hres : avl_delete_thunk k delfn r with ⟨r', res, j2⟩
        rw [hres] at ihr
        rcases ihr with ⟨hvr', hjt, hjf⟩
        cases j2 with
        | true =>
          have hh := hjt rfl
          refine ⟨valid_node.mpr ⟨hvl, hvr', by omega, hb1, hb2⟩,
            fun _ => ?_, fun h => by simp at h⟩
          simp only [Avl.ht]
          omega
        | false =>
          have hh := hjf rfl
          have hb' : b - 1 = (r'.ht : Int) - (l.ht : Int) := by omega
          have H := delete_commit_split l r' (b - 1) key hvl hvr' hb'
          have hcase : b - 1 = -2 ∨ (-1 ≤ b - 1 ∧ b - 1 ≤ 0) := by omega
          rcases hcase with hc | hc
          · rcases H.2.1 hc with ⟨hvT, hz, hnz⟩
            dsimp only
            refine ⟨hvT, fun hj => ?_, fun hj => ?_⟩
            · rcases eq_or_ne l.bal 0 with h0 | h0
              · rcases hz h0 with ⟨hhh, _⟩
                simp only [Avl.ht]
                omega
              · rcases hnz h0 with ⟨_, hflag⟩
                rw [hj] at hflag
                simp at hflag
            · rcases eq_or_ne l.bal 0 with h0 | h0
              · rcases hz h0 with ⟨_, hflag⟩
                rw [hj] at hflag
                simp at hflag
              · rcases hnz h0 with ⟨hhh, _⟩
                simp only [Avl.ht]
                omega
          · dsimp only
            rw [show avl_delete_commit (Avl.node l r' (b - 1) key) =
                (Avl.node l r' (b - 1) key, !((b - 1) == 0)) from
              H.1 hc.1 (by omega)]
            refine ⟨valid_node.mpr ⟨hvl, hvr', hb', by omega, by omega⟩,
              fun hj => ?_, fun hj => ?_⟩
            · by_cases hb0 : b - 1 = 0
              · rw [show ((b - 1 : Int) == 0) = true from by simp [hb0]] at hj
                simp at hj
              · simp only [Avl.ht]
                omega
            · by_cases hb0 : b - 1 = 0
              · simp only [Avl.ht]
                omega
              · rw [show ((b - 1 : Int) == 0) = false from by simp [hb0]]
                  at hj
                simp at hj

/-! ## Ordering lemmas -/

theorem inorder_eq_nil {t : Avl} : t.inorder = [] ↔ t = .nil := by
  cases t with
  | nil => simp [Avl.inorder]
  | node l r b k => simp [Avl.inorder]

/-- Decomposition of strict sortedness at a node. -/
theorem sorted_node {l r : Avl} {b key : Int} :
    (Avl.node l r b key).sortedKeys ↔
      l.sortedKeys ∧ r.sortedKeys ∧ (∀ x ∈ l.inorder, x < key) ∧
        (∀ y ∈ r.inorder, key < y) := by
  show List.Pairwise _ _ ↔ _
  simp only [Avl.inorder] at *
  rw [List.pairwise_append, List.pairwise_cons]
  constructor
  · rintro ⟨h1, ⟨h2, h3⟩, h4⟩
    exact ⟨h1, h3, fun x hx => h4 x hx key (List.mem_cons_self key _), h2⟩
  · rintro ⟨h1, h2, h3, h4⟩
    refine ⟨h1, ⟨h4, h2⟩, fun x hx y hy => ?_⟩
    rcases List.mem_cons.mp hy with rfl | hy'
    · exact h3 x hx
    · exact lt_trans (h3 x hx) (h4 y hy')

/-- The keys after an insertion (no join callback) are the old keys plus the
inserted one. -/
theorem mem_insert_thunk (k : Int) (t : Avl) (x : Int) :
    x ∈ ((avl_insert_thunk k none t).1).inorder ↔
      x ∈ t.inorder ∨ x = k := by
  induction t with
  | nil => simp [avl_insert_thunk, Avl.inorder]
  | node l r b key ihl ihr =>
    simp only [avl_insert_thunk]
    by_cases hk : k = key
    · subst hk
      simp only [if_pos rfl]
      simp only [Avl.inorder, List.mem_append, List.mem_cons]
      tauto
    · simp only [if_neg hk]
      by_cases hlt : k < key
      · simp only [if_pos hlt]
        rcases hres : avl_insert_thunk k none l with ⟨l', st, c⟩
        rw [hres] at ihl
        cases st with
        | none =>
          dsimp only
          have := insert_commit_inorder (Avl.node l' r (b - 1) key)
          rw [this]
          simp only [Avl.inorder, List.mem_append, List.mem_cons] at ihl ⊢
          tauto
        | some ret =>
          dsimp only
          simp only [Avl.inorder, List.mem_append, List.mem_cons] at ihl ⊢
          tauto
      · simp only [if_neg hlt]
        rcases hres : avl_insert_thunk k none r with ⟨r', st, c⟩
        rw [hres] at ihr
        cases st with
        | none =>
          dsimp only
          have := insert_commit_inorder (Avl.node l r' (b + 1) key)
          rw [this]
          simp only [Avl.inorder, List.mem_append, List.mem_cons] at ihr ⊢
          tauto
        | some ret =>
          dsimp only
          simp only [Avl.inorder, List.mem_append, List.mem_cons] at ihr ⊢
          tauto

/-- Insertion without a join callback preserves the ordering invariant. -/
theorem insert_thunk_sorted (k : Int) (t : Avl) (hs : t.sortedKeys) :
    ((avl_insert_thunk k none t).1).sortedKeys := by
  induction t with
  | nil =>
    simp [avl_insert_thunk, Avl.sortedKeys, Avl.inorder]
  | node l r b key ihl ihr =>
    rcases sorted_node.mp hs with ⟨hsl, hsr, hlk, hgk⟩
    specialize ihl hsl
    specialize ihr hsr
    simp only [avl_insert_thunk]
    by_cases hk : k = key
    · simp only [if_pos hk]
      exact hs
    · simp only [if_neg hk]
      by_cases hlt : k < key
      · simp only [if_pos hlt]
        rcases hres : avl_insert_thunk k none l with ⟨l', st, c⟩
        have hmem := mem_insert_thunk k l
        rw [hres] at ihl hmem
        have hlk' : ∀ x ∈ l'.inorder, x < key := by
          intro x hx
          rcases (hmem x).mp hx with h | rfl
          · exact hlk x h
          · exact hlt
        cases st with
        | none =>
          dsimp only
          show List.Sorted _ _
          rw [insert_commit_inorder (Avl.node l' r (b - 1) key)]
          exact sorted_node.mpr ⟨ihl, hsr, hlk', hgk⟩
        | some ret =>
          dsimp only
          exact sorted_node.mpr ⟨ihl, hsr, hlk', hgk⟩
      · simp only [if_neg hlt]
        have hgt : key < k := by omega
        rcases hres : avl_insert_thunk k none r with ⟨r', st, c⟩
        have hmem := mem_insert_thunk k r
        rw [hres] at ihr hmem
        have hgk' : ∀ y ∈ r'.inorder, key < y := by
          intro y hy
          rcases (hmem y).mp hy with h | rfl
          · exact hgk y h
          · exact hgt
        cases st with
        | none =>
          dsimp only
          show List.Sorted _ _
          rw [insert_commit_inorder (Avl.node l r' (b + 1) key)]
          exact sorted_node.mpr ⟨hsl, ihr, hlk, hgk'⟩
        | some ret =>
          dsimp only
          exact sorted_node.mpr ⟨hsl, ihr, hlk, hgk'⟩

/-- Inserting a key already present, with no join callback: the recursion
finds the equal node and aborts with "already present", leaving the tree
untouched and running no commit. -/
theorem insert_thunk_found (k : Int) (t : Avl) (hs : t.sortedKeys)
    (hmem : k ∈ t.inorder) :
    avl_insert_thunk k none t = (t, some true, 0) := by
  induction t with
  | nil => simp [Avl.inorder] at hmem
  | node l r b key ihl ihr =>
    rcases sorted_node.mp hs with ⟨hsl, hsr, hlk, hgk⟩
    simp only [avl_insert_thunk]
    by_cases hk : k = key
    · simp only [if_pos hk]
    · simp only [if_neg hk]
      simp only [Avl.inorder, List.mem_append, List.mem_cons] at hmem
      by_cases hlt : k < key
      · simp only [if_pos hlt]
        have hmerl : k ∈ l.inorder := by
          rcases hmem with h | h | h
          · exact h
          · exact absurd h hk
          · exact absurd (hgk k h) (by omega)
        rw [ihl hsl hmerl]
      · simp only [if_neg hlt]
        have hmerr : k ∈ r.inorder := by
          rcases hmem with h | h | h
          · exact absurd (hlk k h) (by omega)
          · exact absurd h hk
          · exact h
        rw [ihr hsr hmerr]

/-- Inserting a key already present with a join callback: the recursion calls
the callback exactly once on the slot holding the equal node, aborts with
"already present", and leaves every other link and balance field untouched. -/
theorem insert_thunk_join (k : Int) (t : Avl) (f : Avl → Int → Avl)
    (hs : t.sortedKeys) (hmem : k ∈ t.inorder) :
    avl_insert_thunk k (some f) t =
      (mapAtKey k (fun s => f s k) t, some true, 1) := by
  induction t with
  | nil => simp [Avl.inorder] at hmem
  | node l r b key ihl ihr =>
    rcases sorted_node.mp hs with ⟨hsl, hsr, hlk, hgk⟩
    simp only [avl_insert_thunk, mapAtKey]
    by_cases hk : k = key
    · simp only [if_pos hk]
    · simp only [if_neg hk]
      simp only [Avl.inorder, List.mem_append, List.mem_cons] at hmem
      by_cases hlt : k < key
      · simp only [if_pos hlt]
        have hmerl : k ∈ l.inorder := by
          rcases hmem with h | h | h
          · exact h
          · exact absurd h hk
          · exact absurd (hgk k h) (by omega)
        rw [ihl hsl hmerl]
      · simp only [if_neg hlt]
        have hmerr : k ∈ r.inorder := by
          rcases hmem with h | h | h
          · exact absurd (hlk k h) (by omega)
          · exact absurd h hk
          · exact h
        rw [ihr hsr hmerr]

/-- Deleting a key that is present, with a predicate vetoing the removal: the
recursion finds the node, the veto fires the `longjmp` past all pending
rebalancing, the tree is untouched, and the matched node is still returned. -/
theorem delete_thunk_veto (k : Int) (t : Avl) (f : Int → Bool)
    (hs : t.sortedKeys) (hmem : k ∈ t.inorder) (hf : f k = false) :
    avl_delete_thunk k (some f) t = (t, some k, true) := by
  induction t with
  | nil => simp [Avl.inorder] at hmem
  | node l r b key ihl ihr =>
    rcases sorted_node.mp hs with ⟨hsl, hsr, hlk, hgk⟩
    simp only [avl_delete_thunk]
    by_cases hk : k = key
    · subst hk
      simp only [if_pos rfl]
      simp [vetoed, hf]
    · simp only [if_neg hk]
      simp only [Avl.inorder, List.mem_append, List.mem_cons] at hmem
      by_cases hlt : k < key
      · simp only [if_pos hlt]
        have hmerl : k ∈ l.inorder := by
          rcases hmem with h | h | h
          · exact h
          · exact absurd h hk
          · exact absurd (hgk k h) (by omega)
        rw [ihl hsl hmerl]
      · simp only [if_neg hlt]
        have hmerr : k ∈ r.inorder := by
          rcases hmem with h | h | h
          · exact absurd (hlk k h) (by omega)
          · exact absurd h hk
          · exact h
        rw [ihr hsr hmerr]

/-! ## Traversal lemmas -/

/-- Splitting a visit run at an append: if the first part stopped, the second
part is never reached; otherwise the run continues with the carried state. -/
theorem runVisits_append {σ : Type} (fn : Int → σ → Int × σ)
    (xs ys : List Int) (s : σ) :
    runVisits fn (xs ++ ys) s =
      (match runVisits fn xs s with
       | (vs, s', r) =>
         if r ≠ 0 then (vs, s', r)
         else
           match runVisits fn ys s' with
           | (vs2, s'', r2) => (vs ++ vs2, s'', r2)) := by
  induction xs generalizing s with
  | nil =>
    simp only [List.nil_append, runVisits]
    rcases h2 : runVisits fn ys s with ⟨vs2, s2, r2⟩
    simp
  | cons x xs ih =>
    simp only [List.cons_append, runVisits, List.append_eq]
    by_cases hq : (fn x s).1 ≠ 0
    · simp [hq]
    · simp only [if_neg hq]
      rw [ih]
      rcases h1 : runVisits fn xs (fn x s).2 with ⟨vs, s1, r1⟩
      by_cases hr : r1 ≠ 0
      · simp [hr]
      · simp only [if_neg hr]
        rcases h2 : runVisits fn ys s1 with ⟨vs2, s2, r2⟩
        simp

/-- A pre-order walk is the cancellable left-to-right run over the pre-order
key sequence. -/
theorem foreach_preorder_run {σ : Type} (fn : Int → σ → Int × σ) :
    ∀ (t : Avl) (s : σ),
      avl_foreach_preorder fn t s = runVisits fn t.preorderKeys s := by
  intro t
  induction t with
  | nil => intro s; rfl
  | node l r b k ihl ihr =>
    intro s
    simp only [avl_foreach_preorder, Avl.preorderKeys, runVisits]
    rw [runVisits_append, ← ihl]
    by_cases hq : (fn k s).1 ≠ 0
    · simp [hq]
    · simp only [if_neg hq]
      rcases h1 : avl_foreach_preorder fn l (fn k s).2 with ⟨vs, s1, r1⟩
      by_cases hr : r1 ≠ 0
      · simp [hr]
      · simp only [if_neg hr]
        rw [← ihr]

/-- An in-order walk is the cancellable left-to-right run over the in-order
key sequence. -/
theorem foreach_inorder_run {σ : Type} (fn : Int → σ → Int × σ) :
    ∀ (t : Avl) (s : σ),
      avl_foreach_inorder fn t s = runVisits fn t.inorder s := by
  intro t
  induction t with
  | nil => intro s; rfl
  | node l r b k ihl ihr =>
    intro s
    simp only [avl_foreach_inorder, Avl.inorder]
    rw [runVisits_append, ← ihl]
    rcases h1 : avl_foreach_inorder fn l s with ⟨vs, s1, r1⟩
    by_cases hr : r1 ≠ 0
    · simp [hr]
    · simp only [if_neg hr]
      simp only [runVisits]
      by_cases hq : (fn k s1).1 ≠ 0
      · simp [hq]
      · simp only [if_neg hq]
        rw [← ihr]

/-- A post-order walk is the cancellable left-to-right run over the
post-order key sequence. -/
theorem foreach_postorder_run {σ : Type} (fn : Int → σ → Int × σ) :
    ∀ (t : Avl) (s : σ),
      avl_foreach_postorder fn t s = runVisits fn t.postorderKeys s := by
  intro t
  induction t with
  | nil => intro s; rfl
  | node l r b k ihl ihr =>
    intro s
    simp only [avl_foreach_postorder, Avl.postorderKeys]
    rw [runVisits_append, runVisits_append, ← ihl]
    rcases h1 : avl_foreach_postorder fn l s with ⟨vs, s1, r1⟩
    by_cases hr : r1 ≠ 0
    · simp [hr]
    · simp only [if_neg hr]
      rw [← ihr]
      rcases h2 : avl_foreach_postorder fn r s1 with ⟨vs2, s2, r2⟩
      by_cases hr2 : r2 ≠ 0
      · simp [hr2]
      · simp only [if_neg hr2]
        simp only [runVisits]
        by_cases hq : (fn k s2).1 ≠ 0
        · simp [hq]
        · push_neg at hr2 hq
          simp [hr2, hq]

/-- `avl_foreach` is the cancellable run over the selected traversal order
(for every selector value, matched or not). -/
theorem foreach_run {σ : Type} (t : Avl) (dir : Nat) (fn : Int → σ → Int × σ)
    (s : σ) :
    avl_foreach t dir fn s = runVisits fn (travKeys dir t) s := by
  unfold avl_foreach travKeys
  split_ifs with h1 h2 h3
  · exact foreach_preorder_run fn t s
  · exact foreach_inorder_run fn t s
  · exact foreach_postorder_run fn t s
  · rfl

/-- A visitor that never asks to stop is run over the entire key list, and
the traversal result is the neutral 0. -/
theorem runVisits_all {σ : Type} (fn : Int → σ → Int × σ)
    (h : ∀ k s', (fn k s').1 = 0) :
    ∀ (ks : List Int) (s : σ),
      (runVisits fn ks s).1 = ks ∧ (runVisits fn ks s).2.2 = 0 := by
  intro ks
  induction ks with
  | nil => intro s; exact ⟨rfl, rfl⟩
  | cons k ks ih =>
    intro s
    simp only [runVisits, h k s]
    rcases hres : runVisits fn ks (fn k s).2 with ⟨vs, s', r⟩
    have := ih (fn k s).2
    rw [hres] at this
    simp_all

/-- The counting visitor that asks to stop on its third invocation (its state
is the number of earlier invocations). -/
def stop3 : Int → Nat → Int × Nat :=
  fun _ n => ((if n == 2 then 7 else 0 : Int), n + 1)

/-- Running `stop3` from count `n ≤ 2` visits `min (3 - n)` of the list. -/
theorem runVisits_stop3 :
    ∀ (ks : List Int) (n : Nat), n ≤ 2 →
      ((runVisits stop3 ks n).1).length = min (3 - n) ks.length := by
  intro ks
  induction ks with
  | nil => intro n _; simp [runVisits]
  | cons k ks ih =>
    intro n hn
    by_cases h2 : n = 2
    · subst h2
      simp [runVisits, stop3]
    · simp only [runVisits, stop3]
      rw [show ((n == 2) : Bool) = false from by simp [h2]]
      simp only [Bool.false_eq_true, if_false]
      rw [if_neg (by simp)]
      rcases hres : runVisits stop3 ks (n + 1) with ⟨vs, s', r⟩
      have := ih (n + 1) (by omega)
      rw [hres] at this
      simp only [List.length_cons, this, List.length]
      omega

/-! ## Step-level height/stop characterizations -/

/-- Insertion step, left child grew by one: the commit jumps iff the
post-correction balance is zero iff the subtree height equals its pre-insert
value `max (l'.ht - 1) r.ht + 1`; otherwise the height is one more. -/
theorem insert_step_left (l' r : Avl) (b' k : Int)
    (hvl : l'.valid) (hvr : r.valid)
    (hb : b' = (r.ht : Int) - (l'.ht : Int))
    (hg1 : 1 ≤ l'.ht) (hg2 : l'.bal ≠ 0 ∨ l'.ht = 1)
    (hpre1 : -1 ≤ (r.ht : Int) - ((l'.ht : Int) - 1))
    (hpre2 : (r.ht : Int) - ((l'.ht : Int) - 1) ≤ 1) :
    ((avl_insert_commit (Avl.node l' r b' k)).2 = true ↔
        (avl_insert_commit (Avl.node l' r b' k)).1.ht =
          max (l'.ht - 1) r.ht + 1) ∧
      ((avl_insert_commit (Avl.node l' r b' k)).2 = false ↔
        (avl_insert_commit (Avl.node l' r b' k)).1.ht =
          max (l'.ht - 1) r.ht + 2) := by
  have H := insert_commit_split l' r b' k hvl hvr hb
  have hcase : b' = -2 ∨ b' = -1 ∨ b' = 0 := by omega
  rcases hcase with hc | hc | hc
  · have hheavy : l'.bal ≠ 0 := by
      rcases hg2 with h | h
      · exact h
      · omega
    rcases H.2.1 hc hheavy with ⟨_, hht, hfl⟩
    rw [hfl, hht]
    exact ⟨⟨fun _ => by omega, fun _ => rfl⟩,
      ⟨fun h => by simp at h, fun h => absurd h (by omega)⟩⟩
  · subst hc
    rw [H.1 (by omega) (by omega)]
    simp only [Avl.ht]
    exact ⟨⟨fun h => by simp at h, fun h => absurd h (by omega)⟩,
      ⟨fun _ => by omega, fun _ => by simp⟩⟩
  · subst hc
    rw [H.1 (by omega) (by omega)]
    simp only [Avl.ht]
    exact ⟨⟨fun _ => by omega, fun _ => by simp⟩,
      ⟨fun h => by simp at h, fun h => absurd h (by omega)⟩⟩

/-- Insertion step, right child grew by one: mirror of `insert_step_left`. -/
theorem insert_step_right (l r' : Avl) (b' k : Int)
    (hvl : l.valid) (hvr : r'.valid)
    (hb : b' = (r'.ht : Int) - (l.ht : Int))
    (hg1 : 1 ≤ r'.ht) (hg2 : r'.bal ≠ 0 ∨ r'.ht = 1)
    (hpre1 : -1 ≤ ((r'.ht : Int) - 1) - (l.ht : Int))
    (hpre2 : ((r'.ht : Int) - 1) - (l.ht : Int) ≤ 1) :
    ((avl_insert_commit (Avl.node l r' b' k)).2 = true ↔
        (avl_insert_commit (Avl.node l r' b' k)).1.ht =
          max l.ht (r'.ht - 1) + 1) ∧
      ((avl_insert_commit (Avl.node l r' b' k)).2 = false ↔
        (avl_insert_commit (Avl.node l r' b' k)).1.ht =
          max l.ht (r'.ht - 1) + 2) := by
  have H := insert_commit_split l r' b' k hvl hvr hb
  have hcase : b' = 2 ∨ b' = 1 ∨ b' = 0 := by omega
  rcases hcase with hc | hc | hc
  · have hheavy : r'.bal ≠ 0 := by
      rcases hg2 with h | h
      · exact h
      · omega
    rcases H.2.2 hc hheavy with ⟨_, hht, hfl⟩
    rw [hfl, hht]
    exact ⟨⟨fun _ => by omega, fun _ => rfl⟩,
      ⟨fun h => by simp at h, fun h => absurd h (by omega)⟩⟩
  · subst hc
    rw [H.1 (by omega) (by omega)]
    simp only [Avl.ht]
    exact ⟨⟨fun h => by simp at h, fun h => absurd h (by omega)⟩,
      ⟨fun _ => by omega, fun _ => by simp⟩⟩
  · subst hc
    rw [H.1 (by omega) (by omega)]
    simp only [Avl.ht]
    exact ⟨⟨fun _ => by omega, fun _ => by simp⟩,
      ⟨fun h => by simp at h, fun h => absurd h (by omega)⟩⟩

/-- Deletion step, left child shrank by one: the commit jumps iff the
post-correction balance is nonzero iff the subtree height equals its
pre-delete value `max (l'.ht + 1) r.ht + 1`; propagation continues (no jump)
iff the balance is zero, and then the height is one less. -/
theorem delete_step_left (l' r : Avl) (b' k : Int)
    (hvl : l'.valid) (hvr : r.valid)
    (hb : b' = (r.ht : Int) - (l'.ht : Int))
    (hpre1 : -1 ≤ (r.ht : Int) - ((l'.ht : Int) + 1))
    (hpre2 : (r.ht : Int) - ((l'.ht : Int) + 1) ≤ 1) :
    ((avl_delete_commit (Avl.node l' r b' k)).2 = true ↔
        (avl_delete_commit (Avl.node l' r b' k)).1.ht =
          max (l'.ht + 1) r.ht + 1) ∧
      ((avl_delete_commit (Avl.node l' r b' k)).2 = false ↔
        (avl_delete_commit (Avl.node l' r b' k)).1.ht + 1 =
          max (l'.ht + 1) r.ht + 1) := by
  have H := delete_commit_split l' r b' k hvl hvr hb
  have hcase : b' = 2 ∨ b' = 1 ∨ b' = 0 := by omega
  rcases hcase with hc | hc | hc
  · rcases H.2.2 hc with ⟨_, hz, hnz⟩
    rcases eq_or_ne r.bal 0 with h0 | h0
    · rcases hz h0 with ⟨hht, hfl⟩
      rw [hfl, hht]
      exact ⟨⟨fun _ => by omega, fun _ => rfl⟩,
        ⟨fun h => by simp at h, fun h => absurd h (by omega)⟩⟩
    · rcases hnz h0 with ⟨hht, hfl⟩
      rw [hfl, hht]
      exact ⟨⟨fun h => by simp at h, fun h => absurd h (by omega)⟩,
        ⟨fun _ => by omega, fun _ => rfl⟩⟩
  · subst hc
    rw [H.1 (by omega) (by omega)]
    simp only [Avl.ht]
    exact ⟨⟨fun _ => by omega, fun _ => by simp⟩,
      ⟨fun h => by simp at h, fun h => absurd h (by omega)⟩⟩
  · subst hc
    rw [H.1 (by omega) (by omega)]
    simp only [Avl.ht]
    exact ⟨⟨fun h => by simp at h, fun h => absurd h (by omega)⟩,
      ⟨fun _ => by omega, fun _ => by simp⟩⟩

/-- Deletion step, right child shrank by one: mirror of `delete_step_left`. -/
theorem delete_step_right (l r' : Avl) (b' k : Int)
    (hvl : l.valid) (hvr : r'.valid)
    (hb : b' = (r'.ht : Int) - (l.ht : Int))
    (hpre1 : -1 ≤ ((r'.ht : Int) + 1) - (l.ht : Int))
    (hpre2 : ((r'.ht : Int) + 1) - (l.ht : Int) ≤ 1) :
    ((avl_delete_commit (Avl.node l r' b' k)).2 = true ↔
        (avl_delete_commit (Avl.node l r' b' k)).1.ht =
          max l.ht (r'.ht + 1) + 1) ∧
      ((avl_delete_commit (Avl.node l r' b' k)).2 = false ↔
        (avl_delete_commit (Avl.node l r' b' k)).1.ht + 1 =
          max l.ht (r'.ht + 1) + 1) := by
  have H := delete_commit_split l r' b' k hvl hvr hb
  have hcase : b' = -2 ∨ b' = -1 ∨ b' = 0 := by omega
  rcases hcase with hc | hc | hc
  · rcases H.2.1 hc with ⟨_, hz, hnz⟩
    rcases eq_or_ne l.bal 0 with h0 | h0
    · rcases hz h0 with ⟨hht, hfl⟩
      rw [hfl, hht]
      exact ⟨⟨fun _ => by omega, fun _ => rfl⟩,
        ⟨fun h => by simp at h, fun h => absurd h (by omega)⟩⟩
    · rcases hnz h0 with ⟨hht, hfl⟩
      rw [hfl, hht]
      exact ⟨⟨fun h => by simp at h, fun h => absurd h (by omega)⟩,
        ⟨fun _ => by omega, fun _ => rfl⟩⟩
  · subst hc
    rw [H.1 (by omega) (by omega)]
    simp only [Avl.ht]
    exact ⟨⟨fun _ => by omega, fun _ => by simp⟩,
      ⟨fun h => by simp at h, fun h => absurd h (by omega)⟩⟩
  · subst hc
    rw [H.1 (by omega) (by omega)]
    simp only [Avl.ht]
    exact ⟨⟨fun h => by simp at h, fun h => absurd h (by omega)⟩,
      ⟨fun _ => by omega, fun _ => by simp⟩⟩

/-- When the left recursive insertion aborted via `longjmp`, the parent keeps
its balance field and child link untouched and no commit runs. -/
theorem insert_jump_frame (l r : Avl) (b key k : Int) (j : Bool) (c : Nat)
    (l' : Avl) (hlt : k < key)
    (hres : avl_insert_thunk k none l = (l', some j, c)) :
    avl_insert_thunk k none (Avl.node l r b key) =
      (Avl.node l' r b key, some j, c) := by
  simp only [avl_insert_thunk, if_neg (by omega : ¬k = key), if_pos hlt,
    hres]

/-- When the left recursive deletion aborted via `longjmp`, the parent keeps
its balance field and child link untouched and no commit runs. -/
theorem delete_jump_frame (l r : Avl) (b key k : Int)
    (delfn : Option (Int → Bool)) (res : Option Int) (l' : Avl)
    (hlt : k < key)
    (hres : avl_delete_thunk k delfn l = (l', res, true)) :
    avl_delete_thunk k delfn (Avl.node l r b key) =
      (Avl.node l' r b key, res, true) := by
  simp only [avl_delete_thunk, if_neg (by omega : ¬k = key), if_pos hlt,
    hres]

/-- Mirror of `insert_jump_frame` for a parent whose search path descends
into the right child. -/
theorem insert_jump_frame_right (l r : Avl) (b key k : Int) (j : Bool)
    (c : Nat) (r' : Avl) (hgt : key < k)
    (hres : avl_insert_thunk k none r = (r', some j, c)) :
    avl_insert_thunk k none (Avl.node l r b key) =
      (Avl.node l r' b key, some j, c) := by
  simp only [avl_insert_thunk, if_neg (by omega : ¬k = key),
    if_neg (by omega : ¬k < key), hres]

/-- Mirror of `delete_jump_frame` for a parent whose search path descends
into the right child. -/
theorem delete_jump_frame_right (l r : Avl) (b key k : Int)
    (delfn : Option (Int → Bool)) (res : Option Int) (r' : Avl)
    (hgt : key < k)
    (hres : avl_delete_thunk k delfn r = (r', res, true)) :
    avl_delete_thunk k delfn (Avl.node l r b key) =
      (Avl.node l r' b key, res, true) := by
  simp only [avl_delete_thunk, if_neg (by omega : ¬k = key),
    if_neg (by omega : ¬k < key), hres]

theorem avl_insert_fst (t : Avl) (k : Int)
    (joinfn : Option (Avl → Int → Avl)) :
    (avl_insert t k joinfn).1 = (avl_insert_thunk k joinfn t).1 := by
  unfold avl_insert
  rcases hres : avl_insert_thunk k joinfn t with ⟨t', st, c⟩
  cases st <;> rfl

/-- Every tree built from the empty tree by a sequence of insertions (no join
callback) satisfies the ordering invariant. -/
theorem build_sorted (ks : List Int) : (build ks).sortedKeys := by
  have main : ∀ (ks : List Int) (t : Avl), t.sortedKeys →
      (ks.foldl (fun t k => (avl_insert t k none).1) t).sortedKeys := by
    intro ks
    induction ks with
    | nil => intro t h; exact h
    | cons k ks ih =>
      intro t h
      simp only [List.foldl_cons]
      refine ih _ ?_
      rw [avl_insert_fst]
      exact insert_thunk_sorted k t h
  exact main ks .nil (List.sorted_nil)

/-- The subtree the descent reaches inherits validity. -/
theorem subtreeAt_valid (k : Int) (t : Avl) (hv : t.valid) :
    (subtreeAt k t).valid := by
  induction t with
  | nil => exact hv
  | node l r b key ihl ihr =>
    rcases valid_node.mp hv with ⟨hvl, hvr, _, _, _⟩
    simp only [subtreeAt]
    split
    · exact hv
    · split
      · exact ihl hvl
      · exact ihr hvr

/-- The subtree the descent reaches inherits the ordering invariant. -/
theorem subtreeAt_sorted (k : Int) (t : Avl) (hs : t.sortedKeys) :
    (subtreeAt k t).sortedKeys := by
  induction t with
  | nil => exact hs
  | node l r b key ihl ihr =>
    rcases sorted_node.mp hs with ⟨hsl, hsr, _, _⟩
    simp only [subtreeAt]
    split
    · exact hs
    · split
      · exact ihl hsl
      · exact ihr hsr

/-- If the descent to `k` reaches a node whose key is `k`, then `k` is a key
of the tree. -/
theorem subtreeAt_key_mem (k : Int) (t : Avl) (L R : Avl) (b : Int)
    (hsub : subtreeAt k t = Avl.node L R b k) : k ∈ t.inorder := by
  induction t with
  | nil => simp [subtreeAt] at hsub
  | node l r bb key ihl ihr =>
    simp only [subtreeAt] at hsub
    by_cases hk : k = key
    · simp only [Avl.inorder, List.mem_append, List.mem_cons]
      exact Or.inr (Or.inl hk)
    · rw [if_neg hk] at hsub
      simp only [Avl.inorder, List.mem_append, List.mem_cons]
      by_cases hlt : k < key
      · rw [if_pos hlt] at hsub
        exact Or.inl (ihl hsub)
      · rw [if_neg hlt] at hsub
        exact Or.inr (Or.inr (ihr hsub))

/-- Every key of the subtree the descent reaches is a key of the tree. -/
theorem subtreeAt_inorder_mem (k x : Int) (t : Avl)
    (hx : x ∈ (subtreeAt k t).inorder) : x ∈ t.inorder := by
  induction t with
  | nil => exact hx
  | node l r b key ihl ihr =>
    simp only [subtreeAt] at hx
    by_cases hk : k = key
    · rw [if_pos hk] at hx
      exact hx
    · rw [if_neg hk] at hx
      simp only [Avl.inorder, List.mem_append, List.mem_cons]
      by_cases hlt : k < key
      · rw [if_pos hlt] at hx
        exact Or.inl (ihl hx)
      · rw [if_neg hlt] at hx
        exact Or.inr (Or.inr (ihr hx))

theorem avl_delete_eq (t : Avl) (k : Int) (delfn : Option (Int → Bool)) :
    avl_delete t k delfn =
      ((avl_delete_thunk k delfn t).1, (avl_delete_thunk k delfn t).2.1) := by
  unfold avl_delete
  rcases avl_delete_thunk k delfn t with ⟨t', res, j⟩
  rfl

/-- Deleting a key that is present (no predicate): at any depth, the
recursion records the matched node in `ctx.res` and the in-order key
sequence of the new tree is the old one with that one key erased — every
other key survives, in order. -/
theorem delete_thunk_found (k : Int) (t : Avl) (hv : t.valid)
    (hs : t.sortedKeys) (hmem : k ∈ t.inorder) :
    (avl_delete_thunk k none t).2.1 = some k ∧
      ((avl_delete_thunk k none t).1).inorder = t.inorder.erase k := by
  induction t with
  | nil => simp [Avl.inorder] at hmem
  | node l r b key ihl ihr =>
    rcases valid_node.mp hv with ⟨hvl, hvr, hb, hb1, hb2⟩
    rcases sorted_node.mp hs with ⟨hsl, hsr, hlk, hgk⟩
    simp only [avl_delete_thunk]
    by_cases hk : k = key
    · subst hk
      rw [if_pos rfl, if_neg (by simp [vetoed])]
      have Rspec := replace_spec l r b hvl hvr hb hb1 hb2
      rcases hres : avl_delete_replace l r b with ⟨t', j⟩
      rw [hres] at Rspec
      refine ⟨rfl, ?_⟩
      have hnotin : k ∉ l.inorder := fun h => absurd (hlk k h) (lt_irrefl k)
      simp only [Avl.inorder, List.erase_append_right _ hnotin,
        List.erase_cons_head]
      exact Rspec.2.1
    · rw [if_neg hk]
      simp only [Avl.inorder, List.mem_append, List.mem_cons] at hmem
      by_cases hlt : k < key
      · rw [if_pos hlt]
        have hmerl : k ∈ l.inorder := by
          rcases hmem with h | h | h
          · exact h
          · exact absurd h hk
          · exact absurd (hgk k h) (by omega)
        have IH := ihl hvl hsl hmerl
        rcases hres : avl_delete_thunk k none l with ⟨l', res, j⟩
        rw [hres] at IH
        have herase : ((Avl.node l r b key).inorder).erase k =
            l.inorder.erase k ++ key :: r.inorder := by
          simp only [Avl.inorder]
          rw [List.erase_append_left _ hmerl]
        cases j with
        | true =>
          refine ⟨IH.1, ?_⟩
          rw [herase]
          simp only [Avl.inorder, IH.2]
        | false =>
          refine ⟨IH.1, ?_⟩
          rw [herase]
          dsimp only
          rw [delete_commit_inorder]
          simp only [Avl.inorder, IH.2]
      · rw [if_neg hlt]
        have hmerr : k ∈ r.inorder := by
          rcases hmem with h | h | h
          · exact absurd (hlk k h) (by omega)
          · exact absurd h hk
          · exact h
        have IH := ihr hvr hsr hmerr
        rcases hres : avl_delete_thunk k none r with ⟨r', res, j⟩
        rw [hres] at IH
        have hnotin : k ∉ l.inorder := fun h =>
          absurd (hlk k h) (by have := hgk k hmerr; omega)
        have herase : ((Avl.node l r b key).inorder).erase k =
            l.inorder ++ key :: r.inorder.erase k := by
          simp only [Avl.inorder]
          rw [List.erase_append_right _ hnotin,
            List.erase_cons_tail (by simp only [beq_iff_eq]; omega)]
        cases j with
        | true =>
          refine ⟨IH.1, ?_⟩
          rw [herase]
          simp only [Avl.inorder, IH.2]
        | false =>
          refine ⟨IH.1, ?_⟩
          rw [herase]
          dsimp only
          rw [delete_commit_inorder]
          simp only [Avl.inorder, IH.2]

/-! ## Claim theorems -/

/-- C1: for every tree whose nodes all have balance factor in `{-1,0,1}` and
equal to right-subtree height minus left-subtree height before the call,
after `avl_insert` of a fresh zeroed node (no join callback) and after
`avl_delete` with any delete-predicate (key absent, removal vetoed, or a node
removed), every node's balance factor is again in `{-1,0,1}`. -/
theorem C1_balance_invariant (t : Avl) (k : Int)
    (delfn : Option (Int → Bool)) (hv : t.valid) :
    ((avl_insert t k none).1).balOk = true ∧
      ((avl_delete t k delfn).1).balOk = true := by
  constructor
  · have H := insert_thunk_spec k t hv
    rw [avl_insert_fst]
    rcases hres : avl_insert_thunk k none t with ⟨t', st, c⟩
    rw [hres] at H
    cases st with
    | none => exact valid_balOk H.1
    | some ret =>
      cases ret with
      | true =>
        dsimp only at H ⊢
        rw [H]
        exact valid_balOk hv
      | false => exact valid_balOk H.1
  · have H := delete_thunk_spec k delfn t hv
    unfold avl_delete
    rcases hres : avl_delete_thunk k delfn t with ⟨t', res, j⟩
    rw [hres] at H
    exact valid_balOk H.1

theorem C1_balance_invariant_w :
    (build [5, 3, 8, 1, 4]).valid ∧
      (((avl_insert (build [5, 3, 8, 1, 4]) 6 none).1).balOk = true ∧
        ((avl_delete (build [5, 3, 8, 1, 4]) 3 none).1).balOk = true) :=
  ⟨by decide, C1_balance_invariant (build [5, 3, 8, 1, 4]) 6 none (by decide) |>.1,
    C1_balance_invariant (build [5, 3, 8, 1, 4]) 3 none (by decide) |>.2⟩

/-- C2: for every tree built from the empty tree by a sequence of
`avl_insert` calls (fixed `Int` comparator), an `AVL_INORDER` `avl_foreach`
whose visitor never stops visits exactly the in-order key sequence, in
strictly increasing comparator order. -/
theorem C2_inorder_sorted {σ : Type} (ks : List Int) (fn : Int → σ → Int × σ)
    (s : σ) (hfn : ∀ k s', (fn k s').1 = 0) :
    (avl_foreach (build ks) AVL_INORDER fn s).1 = (build ks).inorder ∧
      List.Sorted (· < ·) (avl_foreach (build ks) AVL_INORDER fn s).1 := by
  have h1 : travKeys AVL_INORDER (build ks) = (build ks).inorder := by
    simp [travKeys, AVL_INORDER, AVL_PREORDER]
  rw [foreach_run, h1]
  have h2 := runVisits_all fn hfn (build ks).inorder s
  refine ⟨h2.1, ?_⟩
  rw [h2.1]
  exact build_sorted ks

theorem C2_inorder_sorted_w :
    (avl_foreach (build [3, 1, 2]) AVL_INORDER
        (fun _ (s : Nat) => ((0 : Int), s)) 0).1 = (build [3, 1, 2]).inorder ∧
      List.Sorted (· < ·) (avl_foreach (build [3, 1, 2]) AVL_INORDER
        (fun _ (s : Nat) => ((0 : Int), s)) 0).1 :=
  C2_inorder_sorted [3, 1, 2] _ 0 (fun _ _ => rfl)

/-- C3: when `avl_delete` removes a node that has two children — at any
depth: the comparator-guided descent to `k` reaches a node with key `k` and
two nonempty subtrees — the matched node's position is taken over by its
in-order successor (the leftmost key of its right subtree): at the matched
slot the recursion runs exactly `avl_delete_replace` on the matched node's
fields, whose result holds the former left and right keys with the successor
promoted; the removed key is no longer reachable from the root, every other
key (the successor included) survives in order, and the recorded return is
the original matched node, not the successor. -/
theorem C3_successor_splice (t L R : Avl) (b k : Int)
    (hv : t.valid) (hs : t.sortedKeys)
    (hsub : subtreeAt k t = Avl.node L R b k)
    (hL : L ≠ .nil) (hR : R ≠ .nil) :
    (avl_delete t k none).2 = some k ∧
      k ∉ ((avl_delete t k none).1).inorder ∧
      ((avl_delete t k none).1).inorder = t.inorder.erase k ∧
      avl_delete_thunk k none (Avl.node L R b k) =
        ((avl_delete_replace L R b).1, some k,
          (avl_delete_replace L R b).2) ∧
      ((avl_delete_replace L R b).1).inorder = L.inorder ++ R.inorder ∧
      ∃ succ, R.inorder.head? = some succ ∧ succ ≠ k ∧
        succ ∈ ((avl_delete t k none).1).inorder := by
  have hmem : k ∈ t.inorder := subtreeAt_key_mem k t L R b hsub
  have hfound := delete_thunk_found k t hv hs hmem
  have hvsub : (Avl.node L R b k).valid := hsub ▸ subtreeAt_valid k t hv
  have hssub : (Avl.node L R b k).sortedKeys := hsub ▸ subtreeAt_sorted k t hs
  rcases valid_node.mp hvsub with ⟨hvL, hvR, hb, hb1, hb2⟩
  rcases sorted_node.mp hssub with ⟨_, _, _, hgk⟩
  have hnd : t.inorder.Nodup := hs.nodup
  have hglobal : ((avl_delete t k none).1).inorder = t.inorder.erase k := by
    rw [avl_delete_eq]
    exact hfound.2
  have hlocal : avl_delete_thunk k none (Avl.node L R b k) =
      ((avl_delete_replace L R b).1, some k,
        (avl_delete_replace L R b).2) := by
    simp [avl_delete_thunk, vetoed]
  have Rspec := replace_spec L R b hvL hvR hb hb1 hb2
  obtain ⟨_, hio, _⟩ := Rspec
  refine ⟨?_, ?_, hglobal, hlocal, hio, ?_⟩
  · rw [avl_delete_eq]
    exact hfound.1
  · rw [hglobal]
    exact hnd.not_mem_erase
  · have hne : R.inorder ≠ [] := fun h => hR (inorder_eq_nil.mp h)
    rcases hrl : R.inorder with _ | ⟨succ, rest⟩
    · exact absurd hrl hne
    · have hsm : succ ∈ R.inorder := by
        rw [hrl]
        exact List.mem_cons_self succ rest
      have hks : k < succ := hgk succ hsm
      refine ⟨succ, rfl, by omega, ?_⟩
      rw [hglobal]
      refine (List.mem_erase_of_ne (by omega : succ ≠ k)).mpr ?_
      refine subtreeAt_inorder_mem k succ t ?_
      rw [hsub]
      simp only [Avl.inorder, List.mem_append, List.mem_cons]
      exact Or.inr (Or.inr hsm)

theorem C3_successor_splice_w :
    (avl_delete (build [5, 3, 8, 1, 4]) 3 none).2 = some 3 ∧
      (3 : Int) ∉ ((avl_delete (build [5, 3, 8, 1, 4]) 3 none).1).inorder ∧
      ((avl_delete (build [5, 3, 8, 1, 4]) 3 none).1).inorder =
        (build [5, 3, 8, 1, 4]).inorder.erase 3 ∧
      avl_delete_thunk 3 none
          (Avl.node (Avl.node .nil .nil 0 1) (Avl.node .nil .nil 0 4) 0 3) =
        ((avl_delete_replace (Avl.node .nil .nil 0 1)
            (Avl.node .nil .nil 0 4) 0).1, some 3,
          (avl_delete_replace (Avl.node .nil .nil 0 1)
            (Avl.node .nil .nil 0 4) 0).2) ∧
      ((avl_delete_replace (Avl.node .nil .nil 0 1)
          (Avl.node .nil .nil 0 4) 0).1).inorder =
        (Avl.node .nil .nil 0 1).inorder ++ (Avl.node .nil .nil 0 4).inorder ∧
      ∃ succ, (Avl.node .nil .nil 0 4).inorder.head? = some succ ∧
        succ ≠ 3 ∧
        succ ∈ ((avl_delete (build [5, 3, 8, 1, 4]) 3 none).1).inorder :=
  C3_successor_splice (build [5, 3, 8, 1, 4]) (Avl.node .nil .nil 0 1)
    (Avl.node .nil .nil 0 4) 0 3 (by decide) (by decide) (by decide)
    (by decide) (by decide)

/-- C4: during bottom-up rebalancing the post-correction root balance
characterizes the height change exactly as the stop condition.  After an
insertion step (either child grew by one): the commit jumps, which happens
exactly when the post-correction balance is 0, iff the subtree height equals
its pre-insertion value; otherwise the height grew by one.  After a deletion
step (either child shrank by one): the commit jumps, which happens exactly
when the post-correction balance is nonzero, iff the height equals its
pre-deletion value; propagation continues exactly while the balance is 0,
and then the height shrank by one.  When a child call jumped — whether the
search descended into the left or the right child — the parent keeps its
balance field unmodified and runs no commit (all ancestors unaffected). -/
theorem C4_stop_condition :
    (∀ (l' r : Avl) (b' k : Int), l'.valid → r.valid →
      b' = (r.ht : Int) - (l'.ht : Int) → 1 ≤ l'.ht →
      (l'.bal ≠ 0 ∨ l'.ht = 1) →
      -1 ≤ (r.ht : Int) - ((l'.ht : Int) - 1) →
      (r.ht : Int) - ((l'.ht : Int) - 1) ≤ 1 →
      (((avl_insert_commit (Avl.node l' r b' k)).2 = true ↔
          (avl_insert_commit (Avl.node l' r b' k)).1.ht =
            max (l'.ht - 1) r.ht + 1) ∧
        ((avl_insert_commit (Avl.node l' r b' k)).2 = false ↔
          (avl_insert_commit (Avl.node l' r b' k)).1.ht =
            max (l'.ht - 1) r.ht + 2))) ∧
    (∀ (l r' : Avl) (b' k : Int), l.valid → r'.valid →
      b' = (r'.ht : Int) - (l.ht : Int) → 1 ≤ r'.ht →
      (r'.bal ≠ 0 ∨ r'.ht = 1) →
      -1 ≤ ((r'.ht : Int) - 1) - (l.ht : Int) →
      ((r'.ht : Int) - 1) - (l.ht : Int) ≤ 1 →
      (((avl_insert_commit (Avl.node l r' b' k)).2 = true ↔
          (avl_insert_commit (Avl.node l r' b' k)).1.ht =
            max l.ht (r'.ht - 1) + 1) ∧
        ((avl_insert_commit (Avl.node l r' b' k)).2 = false ↔
          (avl_insert_commit (Avl.node l r' b' k)).1.ht =
            max l.ht (r'.ht - 1) + 2))) ∧
    (∀ (l' r : Avl) (b' k : Int), l'.valid → r.valid →
      b' = (r.ht : Int) - (l'.ht : Int) →
      -1 ≤ (r.ht : Int) - ((l'.ht : Int) + 1) →
      (r.ht : Int) - ((l'.ht : Int) + 1) ≤ 1 →
      (((avl_delete_commit (Avl.node l' r b' k)).2 = true ↔
          (avl_delete_commit (Avl.node l' r b' k)).1.ht =
            max (l'.ht + 1) r.ht + 1) ∧
        ((avl_delete_commit (Avl.node l' r b' k)).2 = false ↔
          (avl_delete_commit (Avl.node l' r b' k)).1.ht + 1 =
            max (l'.ht + 1) r.ht + 1))) ∧
    (∀ (l r' : Avl) (b' k : Int), l.valid → r'.valid →
      b' = (r'.ht : Int) - (l.ht : Int) →
      -1 ≤ ((r'.ht : Int) + 1) - (l.ht : Int) →
      ((r'.ht : Int) + 1) - (l.ht : Int) ≤ 1 →
      (((avl_delete_commit (Avl.node l r' b' k)).2 = true ↔
          (avl_delete_commit (Avl.node l r' b' k)).1.ht =
            max l.ht (r'.ht + 1) + 1) ∧
        ((avl_delete_commit (Avl.node l r' b' k)).2 = false ↔
          (avl_delete_commit (Avl.node l r' b' k)).1.ht + 1 =
            max l.ht (r'.ht + 1) + 1))) ∧
    (∀ (l r : Avl) (b key k : Int) (j : Bool) (c : Nat) (l' : Avl),
      k < key → avl_insert_thunk k none l = (l', some j, c) →
      avl_insert_thunk k none (Avl.node l r b key) =
        (Avl.node l' r b key, some j, c)) ∧
    (∀ (l r : Avl) (b key k : Int) (delfn : Option (Int → Bool))
        (res : Option Int) (l' : Avl),
      k < key → avl_delete_thunk k delfn l = (l', res, true) →
      avl_delete_thunk k delfn (Avl.node l r b key) =
        (Avl.node l' r b key, res, true)) ∧
    (∀ (l r : Avl) (b key k : Int) (j : Bool) (c : Nat) (r' : Avl),
      key < k → avl_insert_thunk k none r = (r', some j, c) →
      avl_insert_thunk k none (Avl.node l r b key) =
        (Avl.node l r' b key, some j, c)) ∧
    (∀ (l r : Avl) (b key k : Int) (delfn : Option (Int → Bool))
        (res : Option Int) (r' : Avl),
      key < k → avl_delete_thunk k delfn r = (r', res, true) →
      avl_delete_thunk k delfn (Avl.node l r b key) =
        (Avl.node l r' b key, res, true)) :=
  ⟨fun l' r b' k h1 h2 h3 h4 h5 h6 h7 =>
      insert_step_left l' r b' k h1 h2 h3 h4 h5 h6 h7,
    fun l r' b' k h1 h2 h3 h4 h5 h6 h7 =>
      insert_step_right l r' b' k h1 h2 h3 h4 h5 h6 h7,
    fun l' r b' k h1 h2 h3 h4 h5 =>
      delete_step_left l' r b' k h1 h2 h3 h4 h5,
    fun l r' b' k h1 h2 h3 h4 h5 =>
      delete_step_right l r' b' k h1 h2 h3 h4 h5,
    fun l r b key k j c l' h1 h2 => insert_jump_frame l r b key k j c l' h1 h2,
    fun l r b key k delfn res l' h1 h2 =>
      delete_jump_frame l r b key k delfn res l' h1 h2,
    fun l r b key k j c r' h1 h2 =>
      insert_jump_frame_right l r b key k j c r' h1 h2,
    fun l r b key k delfn res r' h1 h2 =>
      delete_jump_frame_right l r b key k delfn res r' h1 h2⟩

theorem C4_stop_condition_w :
    (((avl_insert_commit (Avl.node (Avl.node .nil .nil 0 1) .nil (-1) 5)).2 =
          true ↔
        (avl_insert_commit (Avl.node (Avl.node .nil .nil 0 1)
            .nil (-1) 5)).1.ht =
          max ((Avl.node .nil .nil 0 1).ht - 1) Avl.nil.ht + 1) ∧
      ((avl_insert_commit (Avl.node (Avl.node .nil .nil 0 1) .nil (-1) 5)).2 =
          false ↔
        (avl_insert_commit (Avl.node (Avl.node .nil .nil 0 1)
            .nil (-1) 5)).1.ht =
          max ((Avl.node .nil .nil 0 1).ht - 1) Avl.nil.ht + 2)) ∧
    (((avl_insert_commit (Avl.node .nil (Avl.node .nil .nil 0 9) 1 5)).2 =
          true ↔
        (avl_insert_commit (Avl.node .nil
            (Avl.node .nil .nil 0 9) 1 5)).1.ht =
          max Avl.nil.ht ((Avl.node .nil .nil 0 9).ht - 1) + 1) ∧
      ((avl_insert_commit (Avl.node .nil (Avl.node .nil .nil 0 9) 1 5)).2 =
          false ↔
        (avl_insert_commit (Avl.node .nil
            (Avl.node .nil .nil 0 9) 1 5)).1.ht =
          max Avl.nil.ht ((Avl.node .nil .nil 0 9).ht - 1) + 2)) ∧
    (((avl_delete_commit (Avl.node .nil (Avl.node .nil .nil 0 9) 1 5)).2 =
          true ↔
        (avl_delete_commit (Avl.node .nil
            (Avl.node .nil .nil 0 9) 1 5)).1.ht =
          max (Avl.nil.ht + 1) (Avl.node .nil .nil 0 9).ht + 1) ∧
      ((avl_delete_commit (Avl.node .nil (Avl.node .nil .nil 0 9) 1 5)).2 =
          false ↔
        (avl_delete_commit (Avl.node .nil
            (Avl.node .nil .nil 0 9) 1 5)).1.ht + 1 =
          max (Avl.nil.ht + 1) (Avl.node .nil .nil 0 9).ht + 1)) ∧
    (((avl_delete_commit (Avl.node (Avl.node .nil .nil 0 1) .nil (-1) 5)).2 =
          true ↔
        (avl_delete_commit (Avl.node (Avl.node .nil .nil 0 1)
            .nil (-1) 5)).1.ht =
          max (Avl.node .nil .nil 0 1).ht (Avl.nil.ht + 1) + 1) ∧
      ((avl_delete_commit (Avl.node (Avl.node .nil .nil 0 1) .nil (-1) 5)).2 =
          false ↔
        (avl_delete_commit (Avl.node (Avl.node .nil .nil 0 1)
            .nil (-1) 5)).1.ht + 1 =
          max (Avl.node .nil .nil 0 1).ht (Avl.nil.ht + 1) + 1)) ∧
    (avl_insert_thunk 1 none
        (Avl.node (Avl.node .nil .nil 0 1) .nil (-1) 2) =
      (Avl.node (Avl.node .nil .nil 0 1) .nil (-1) 2, some true, 0)) ∧
    (avl_delete_thunk 0 none (Avl.node .nil .nil 0 2) =
      (Avl.node .nil .nil 0 2, none, true)) ∧
    (avl_insert_thunk 3 none
        (Avl.node .nil (Avl.node .nil .nil 0 3) 1 2) =
      (Avl.node .nil (Avl.node .nil .nil 0 3) 1 2, some true, 0)) ∧
    (avl_delete_thunk 3 none (Avl.node .nil .nil 0 2) =
      (Avl.node .nil .nil 0 2, none, true)) :=
  ⟨C4_stop_condition.1 (Avl.node .nil .nil 0 1) .nil (-1) 5 (by decide)
      (by decide) (by decide) (by decide) (by decide) (by decide) (by decide),
    C4_stop_condition.2.1 .nil (Avl.node .nil .nil 0 9) 1 5 (by decide)
      (by decide) (by decide) (by decide) (by decide) (by decide) (by decide),
    C4_stop_condition.2.2.1 .nil (Avl.node .nil .nil 0 9) 1 5 (by decide)
      (by decide) (by decide) (by decide) (by decide),
    C4_stop_condition.2.2.2.1 (Avl.node .nil .nil 0 1) .nil (-1) 5
      (by decide) (by decide) (by decide) (by decide) (by decide),
    C4_stop_condition.2.2.2.2.1 (Avl.node .nil .nil 0 1) .nil (-1) 2 1
      true 0 (Avl.node .nil .nil 0 1) (by decide) (by decide),
    C4_stop_condition.2.2.2.2.2.1 .nil .nil 0 2 0 none none .nil (by decide)
      (by decide),
    C4_stop_condition.2.2.2.2.2.2.1 .nil (Avl.node .nil .nil 0 3) 1 2 3 true
      0 (Avl.node .nil .nil 0 3) (by decide) (by decide),
    C4_stop_condition.2.2.2.2.2.2.2 .nil .nil 0 2 3 none none .nil
      (by decide) (by decide)⟩

/-- C5: the two post-rotation balance fields are closed-form functions of the
two pre-rotation balance fields: whenever the two affected nodes' fields
equal their true height differences, `avl_rotate` produces the rotated shape
whose two fields again equal the true height differences, without measuring
any height; and restructuring a `±2` node with AVL-valid children leaves the
subtree root with balance in `{-1,0,1}`. -/
theorem C5_rotation_balance :
    (∀ (l y rB : Avl) (bA bB kA kB : Int),
      bA = ((Avl.node y rB bB kB).ht : Int) - (l.ht : Int) →
      bB = (rB.ht : Int) - (y.ht : Int) →
      avl_rotate (.node l (.node y rB bB kB) bA kA) false =
        .node (.node l y ((y.ht : Int) - (l.ht : Int)) kA) rB
          ((rB.ht : Int) -
            ((Avl.node l y ((y.ht : Int) - (l.ht : Int)) kA).ht : Int)) kB) ∧
    (∀ (lB y r : Avl) (bA bB kA kB : Int),
      bA = (r.ht : Int) - ((Avl.node lB y bB kB).ht : Int) →
      bB = (y.ht : Int) - (lB.ht : Int) →
      avl_rotate (.node (.node lB y bB kB) r bA kA) true =
        .node lB (.node y r ((r.ht : Int) - (y.ht : Int)) kA)
          (((Avl.node y r ((r.ht : Int) - (y.ht : Int)) kA).ht : Int) -
            (lB.ht : Int)) kB) ∧
    (∀ (l r : Avl) (b k : Int), l.valid → r.valid →
      b = (r.ht : Int) - (l.ht : Int) → (b = -2 ∨ b = 2) →
      -1 ≤ (avl_restructure (Avl.node l r b k)).bal ∧
        (avl_restructure (Avl.node l r b k)).bal ≤ 1) := by
  refine ⟨rotate0_spec, rotate1_spec, fun l r b k hvl hvr hb hd => ?_⟩
  subst hb
  rcases hd with h | h
  · have hht : l.ht = r.ht + 2 := by omega
    exact valid_bal_range (restructure_left l r k hvl hvr hht).1
  · have hht : r.ht = l.ht + 2 := by omega
    exact valid_bal_range (restructure_right l r k hvl hvr hht).1

theorem C5_rotation_balance_w :
    (avl_rotate (.node .nil (.node .nil .nil 0 7) 1 4) false =
      .node (.node .nil .nil ((Avl.nil.ht : Int) - (Avl.nil.ht : Int)) 4) .nil
        ((Avl.nil.ht : Int) -
          ((Avl.node .nil .nil
            ((Avl.nil.ht : Int) - (Avl.nil.ht : Int)) 4).ht : Int)) 7) ∧
    (avl_rotate (.node (.node .nil .nil 0 3) .nil (-1) 4) true =
      .node .nil (.node .nil .nil ((Avl.nil.ht : Int) - (Avl.nil.ht : Int)) 4)
        (((Avl.node .nil .nil
            ((Avl.nil.ht : Int) - (Avl.nil.ht : Int)) 4).ht : Int) -
          (Avl.nil.ht : Int)) 3) ∧
    (-1 ≤ (avl_restructure (Avl.node
        (Avl.node (Avl.node .nil .nil 0 0) .nil (-1) 1) .nil (-2) 5)).bal ∧
      (avl_restructure (Avl.node
        (Avl.node (Avl.node .nil .nil 0 0) .nil (-1) 1) .nil (-2) 5)).bal ≤
        1) :=
  ⟨C5_rotation_balance.1 .nil .nil .nil 1 0 4 7 (by decide) (by decide),
    C5_rotation_balance.2.1 .nil .nil .nil (-1) 0 4 3 (by decide) (by decide),
    C5_rotation_balance.2.2 (Avl.node (Avl.node .nil .nil 0 0) .nil (-1) 1)
      .nil (-2) 5 (by decide) (by decide) (by decide) (Or.inl rfl)⟩

/-- C6: when the tree contains a node equal to the query and the supplied
delete-predicate returns false on it, `avl_delete` leaves the whole tree
untouched (in particular its key set), fires the `longjmp` so no rebalancing
runs on the return path, and still returns the matched node. -/
theorem C6_veto_semantics (t : Avl) (k : Int) (f : Int → Bool)
    (hs : t.sortedKeys) (hmem : k ∈ t.inorder) (hf : f k = false) :
    avl_delete_thunk k (some f) t = (t, some k, true) ∧
      avl_delete t k (some f) = (t, some k) := by
  have h := delete_thunk_veto k t f hs hmem hf
  refine ⟨h, ?_⟩
  unfold avl_delete
  rw [h]

theorem C6_veto_semantics_w :
    (avl_delete_thunk 1 (some fun _ => false) (build [2, 1, 3]) =
        (build [2, 1, 3], some 1, true) ∧
      avl_delete (build [2, 1, 3]) 1 (some fun _ => false) =
        (build [2, 1, 3], some 1)) :=
  C6_veto_semantics (build [2, 1, 3]) 1 (fun _ => false) (by decide)
    (by decide) rfl

/-- C7: inserting a key that compares equal to one already in the tree, with
no join callback, leaves the tree's key set and shape (all links and balance
fields) unchanged and reports "already present" (nonzero). -/
theorem C7_insert_existing (t : Avl) (k : Int) (hs : t.sortedKeys)
    (hmem : k ∈ t.inorder) :
    avl_insert_thunk k none t = (t, some true, 0) ∧
      avl_insert t k none = (t, true) := by
  have h := insert_thunk_found k t hs hmem
  refine ⟨h, ?_⟩
  unfold avl_insert
  rw [h]

theorem C7_insert_existing_w :
    avl_insert_thunk 3 none (build [2, 1, 3]) =
        (build [2, 1, 3], some true, 0) ∧
      avl_insert (build [2, 1, 3]) 3 none = (build [2, 1, 3], true) :=
  C7_insert_existing (build [2, 1, 3]) 3 (by decide) (by decide)

/-- C8: for every tree, order selector, and (stateful) visitor,
`avl_foreach` behaves as the sequential run over the selected traversal
order that ends the entire call at the first nonzero visitor result, which
becomes the call's return value; in particular the counting visitor that
stops on its third invocation is invoked `min 3 (number of keys)` times —
exactly three times whenever the tree has at least three nodes — regardless
of the order selector. -/
theorem C8_visitor_cancellation :
    (∀ (σ : Type) (t : Avl) (dir : Nat) (fn : Int → σ → Int × σ) (s : σ),
      avl_foreach t dir fn s = runVisits fn (travKeys dir t) s) ∧
    (∀ (t : Avl) (dir : Nat),
      ((avl_foreach t dir stop3 0).1).length =
        min 3 (travKeys dir t).length) := by
  refine ⟨fun σ t dir fn s => foreach_run t dir fn s, fun t dir => ?_⟩
  rw [foreach_run]
  exact runVisits_stop3 (travKeys dir t) 0 (by omega)

/-- C9: when the tree already holds a node comparing equal to the incoming
key and a join callback is supplied, the callback runs exactly once, on the
tree slot holding the equal node together with the incoming key; insertion
then immediately reports "already present", and whatever the callback did to
that slot, no child link or balance field of any other node changes and no
rebalancing runs (the result is the original tree with only the matched slot
rewritten). -/
theorem C9_join_frame (t : Avl) (k : Int) (f : Avl → Int → Avl)
    (hs : t.sortedKeys) (hmem : k ∈ t.inorder) :
    avl_insert_thunk k (some f) t =
        (mapAtKey k (fun sub => f sub k) t, some true, 1) ∧
      avl_insert t k (some f) =
        (mapAtKey k (fun sub => f sub k) t, true) := by
  have h := insert_thunk_join k t f hs hmem
  refine ⟨h, ?_⟩
  unfold avl_insert
  rw [h]

theorem C9_join_frame_w :
    avl_insert_thunk 3 (some fun sub _ => sub) (build [2, 1, 3]) =
        (mapAtKey 3 (fun sub => (fun sub _ => sub) sub 3) (build [2, 1, 3]),
          some true, 1) ∧
      avl_insert (build [2, 1, 3]) 3 (some fun sub _ => sub) =
        (mapAtKey 3 (fun sub => (fun sub _ => sub) sub 3) (build [2, 1, 3]),
          true) :=
  C9_join_frame (build [2, 1, 3]) 3 (fun sub _ => sub) (by decide) (by decide)

/-- C10: an order selector that matches none of `AVL_PREORDER`,
`AVL_INORDER`, `AVL_POSTORDER` falls through the `switch`: the visitor is
never invoked, the state is untouched, and the neutral 0 is returned. -/
theorem C10_unmatched_selector {σ : Type} (t : Avl) (dir : Nat)
    (fn : Int → σ → Int × σ) (s : σ) (hdir : AVL_POSTORDER < dir) :
    avl_foreach t dir fn s = ([], s, 0) := by
  unfold AVL_POSTORDER at hdir
  unfold avl_foreach
  rw [if_neg (by unfold AVL_PREORDER; omega),
    if_neg (by unfold AVL_INORDER; omega),
    if_neg (by unfold AVL_POSTORDER; omega)]

theorem C10_unmatched_selector_w :
    avl_foreach (build [1, 2]) 7 (fun _ (s : Nat) => ((1 : Int), s + 1)) 0 =
      ([], 0, 0) :=
  C10_unmatched_selector (build [1, 2]) 7 _ 0 (by decide)

end AvlBase

namespace AvlBase

-- sanity checks for the embedding (concrete executions)
example : (avl_insert (avl_insert .nil 1 none).1 2 none).1 =
    .node .nil (.node .nil .nil 0 2) 1 1 := by decide

example :
    (avl_insert (avl_insert (avl_insert .nil 1 none).1 2 none).1 3 none).1 =
    .node (.node .nil .nil 0 1) (.node .nil .nil 0 3) 0 2 := by decide

example : (1 : Int) + max 2 3 = 4 := by omega

end AvlBase
